import Mathlib

/-!
Verification of the AIX-Hackathon regulatory-compliance core against its
natural-language specification.

The development shallowly embeds the Python sources:
  * `src/app/rulepack_merge.py`   (natural key, rule-pack merging)
  * `src/app/model_rulepack.py`   (segmentation cascade, zero-shot domain classification)
  * `models/retriever/search.py`  (top-k search over a regulator index)
  * `models/inference/predict.py` (pipeline, namespace switching)

Machine integers do not occur (Python ints are unbounded); float-valued
similarity scores are carried as rationals, which is faithful for every
property stated here because no claim depends on rounding behaviour.
Python dicts with a fixed field schema are embedded as structures with
Option-valued fields (`none` = key absent).  Python exceptions are
embedded as `Option`-returning functions (`none` = the call raises).
-/

namespace AIX

/-! ## Natural sort key (`_natkey`, src/app/rulepack_merge.py lines 9-10)

`re.split(r"(\d+)", aid)` splits a string into an alternating sequence
text, digits, text, digits, ..., text (the outermost text pieces may be
empty, interior text pieces never are), and `_natkey` converts each digit
run to an `int`.  The resulting tuples are compared by the Python tuple
order: lexicographic, with `int` tokens compared numerically and `str`
tokens compared lexicographically by code point.  Tokens at equal
positions of two keys always have the same kind (both keys alternate
str, int, str, ...), so the cross-kind comparison, which would raise
`TypeError` in Python, is unreachable; it is given a fixed value below. -/

inductive NatTok where
  | str (s : String)
  | num (n : Nat)
deriving DecidableEq, Repr

/-- Python string `<`: lexicographic comparison by code point, a strict
proper-prefix is smaller. -/
def strLt : List Char → List Char → Bool
  | [], [] => false
  | [], _ :: _ => true
  | _ :: _, [] => false
  | a :: as, b :: bs =>
      if a.toNat < b.toNat then true else if b.toNat < a.toNat then false else strLt as bs

/-- Strict comparison of one key token, mirroring the Python `<` on the
tuple components.  The cross-kind cases are unreachable (see above). -/
def natTokLt : NatTok → NatTok → Bool
  | .str s, .str t => strLt s.data t.data
  | .num m, .num n => decide (m < n)
  | .str _, .num _ => true
  | .num _, .str _ => false

/-- Python tuple `<` on natural-sort keys: lexicographic, a strict
proper-prefix is smaller. -/
def natkeyLt : List NatTok → List NatTok → Bool
  | [], [] => false
  | [], _ :: _ => true
  | _ :: _, [] => false
  | a :: as, b :: bs =>
      if natTokLt a b then true else if natTokLt b a then false else natkeyLt as bs

/-- Numeric value of a digit run, as computed by Python `int` (so leading
zeros are dropped: `int("007") = 7`). -/
def digitsVal (l : List Char) : Nat :=
  l.foldl (fun acc c => 10 * acc + (c.toNat - 48)) 0

theorem dropWhile_head_false {p : α → Bool} :
    ∀ {l : List α} {c : α} {rest : List α}, l.dropWhile p = c :: rest → p c = false := by
  intro l
  induction l with
  | nil => intro c rest h; simp [List.dropWhile] at h
  | cons x xs ih =>
      intro c rest h
      by_cases hx : p x
      · rw [List.dropWhile_cons_of_pos hx] at h; exact ih h
      · rw [List.dropWhile_cons_of_neg hx] at h
        cases h
        exact Bool.of_not_eq_true hx

/-- Token list of `re.split(r"(\d+)", s)` with digit runs converted by
`int`: alternating text / number tokens, text tokens at the two ends may
be empty (the empty string yields the single token `str ""`).  Recursion
is driven by a fuel parameter so that the definition reduces in the
kernel; each recursive step consumes at least one character (the head of
the dropWhile residue is a digit), so fuel `l.length + 1` always reaches
the base case and the zero-fuel branch is unreachable from `natTokens`. -/
def natTokensF : Nat → List Char → List NatTok
  | 0, _ => []
  | fuel + 1, l =>
    let t0 := l.takeWhile (fun c => !c.isDigit)
    match l.dropWhile (fun c => !c.isDigit) with
    | [] => [.str (String.mk t0)]
    | c :: rest =>
        .str (String.mk t0) :: .num (digitsVal ((c :: rest).takeWhile Char.isDigit)) ::
          natTokensF fuel ((c :: rest).dropWhile Char.isDigit)

def natTokens (l : List Char) : List NatTok := natTokensF (l.length + 1) l

/-- Embedding of `_natkey` (src/app/rulepack_merge.py line 9). -/
def _natkey (aid : String) : List NatTok := natTokens aid.data

/-! ### Order lemmas for the natural key comparison -/

theorem strLt_asymm : ∀ {a b : List Char}, strLt a b = true → strLt b a = false := by
  intro a
  induction a with
  | nil => intro b h; cases b <;> simp [strLt] at h ⊢
  | cons x xs ih =>
      intro b h
      cases b with
      | nil => simp [strLt] at h
      | cons y ys =>
          simp only [strLt] at h ⊢
          by_cases hxy : x.toNat < y.toNat
          · have : ¬ y.toNat < x.toNat := by omega
            simp [hxy, this]
          · by_cases hyx : y.toNat < x.toNat
            · simp [hxy, hyx] at h
            · simp only [hxy, if_false, hyx, if_true, if_false] at h
              simp [hxy, hyx, ih h]

theorem strLt_conn : ∀ {a b : List Char}, strLt a b = false → strLt b a = false → a = b := by
  intro a
  induction a with
  | nil => intro b h _; cases b <;> simp [strLt] at h ⊢
  | cons x xs ih =>
      intro b h h2
      cases b with
      | nil => simp [strLt] at h2
      | cons y ys =>
          simp only [strLt] at h h2
          by_cases hxy : x.toNat < y.toNat
          · simp [hxy] at h
          · by_cases hyx : y.toNat < x.toNat
            · simp [hxy, hyx] at h2
            · simp only [hxy, hyx, if_false] at h h2
              have hton : x.toNat = y.toNat := by omega
              have hxVal : x = y := by
                refine Char.eq_of_val_eq ?_
                unfold Char.toNat at hton
                exact UInt32.toNat.inj hton
              rw [hxVal, ih h h2]

theorem strLt_trans : ∀ {a b c : List Char},
    strLt a b = true → strLt b c = true → strLt a c = true := by
  intro a
  induction a with
  | nil =>
      intro b c h h2
      cases b with
      | nil => simp [strLt] at h
      | cons y ys => cases c with
        | nil => simp [strLt] at h2
        | cons z zs => simp [strLt]
  | cons x xs ih =>
      intro b c h h2
      cases b with
      | nil => simp [strLt] at h
      | cons y ys =>
          cases c with
          | nil => simp [strLt] at h2
          | cons z zs =>
              simp only [strLt] at h h2 ⊢
              by_cases hxy : x.toNat < y.toNat <;> by_cases hyz : y.toNat < z.toNat
              · have : x.toNat < z.toNat := by omega
                simp [this]
              · by_cases hzy : z.toNat < y.toNat
                · simp [hxy, hyz, hzy] at h2
                · have hyzEq : y.toNat = z.toNat := by omega
                  have : x.toNat < z.toNat := by omega
                  simp [this]
              · by_cases hyx : y.toNat < x.toNat
                · simp [hxy, hyx] at h
                · have : x.toNat < z.toNat := by omega
                  simp [this]
              · by_cases hyx : y.toNat < x.toNat
                · simp [hxy, hyx] at h
                · by_cases hzy : z.toNat < y.toNat
                  · simp [hyz, hzy] at h2
                  · have hxz : ¬ x.toNat < z.toNat := by omega
                    have hzx : ¬ z.toNat < x.toNat := by omega
                    simp only [hxy, hyx, if_false] at h
                    simp only [hyz, hzy, if_false] at h2
                    simp [hxz, hzx, ih h h2]

theorem natTokLt_asymm : ∀ {a b : NatTok}, natTokLt a b = true → natTokLt b a = false := by
  intro a b h
  cases a <;> cases b <;> simp [natTokLt] at h ⊢
  · exact strLt_asymm h
  · omega

theorem natTokLt_conn : ∀ {a b : NatTok},
    natTokLt a b = false → natTokLt b a = false → a = b := by
  intro a b h h2
  cases a <;> cases b <;> simp [natTokLt] at h h2 ⊢
  · exact String.toList_inj.mp (strLt_conn h h2)
  · omega

theorem natTokLt_trans : ∀ {a b c : NatTok},
    natTokLt a b = true → natTokLt b c = true → natTokLt a c = true := by
  intro a b c h h2
  cases a <;> cases b <;> cases c <;> simp [natTokLt] at h h2 ⊢
  · exact strLt_trans h h2
  · omega

theorem natkeyLt_asymm : ∀ {a b : List NatTok}, natkeyLt a b = true → natkeyLt b a = false := by
  intro a
  induction a with
  | nil => intro b h; cases b <;> simp [natkeyLt] at h ⊢
  | cons x xs ih =>
      intro b h
      cases b with
      | nil => simp [natkeyLt] at h
      | cons y ys =>
          simp only [natkeyLt] at h ⊢
          by_cases hxy : natTokLt x y = true
          · simp [hxy, natTokLt_asymm hxy]
          · replace hxy : natTokLt x y = false := by
              cases hval : natTokLt x y
              · rfl
              · exact absurd hval hxy
            by_cases hyx : natTokLt y x = true
            · simp [hxy, hyx] at h
            · replace hyx : natTokLt y x = false := by
                cases hval : natTokLt y x
                · rfl
                · exact absurd hval hyx
              simp only [hxy, hyx, if_false] at h
              simp [hxy, hyx, ih h]

theorem natkeyLt_conn : ∀ {a b : List NatTok},
    natkeyLt a b = false → natkeyLt b a = false → a = b := by
  intro a
  induction a with
  | nil => intro b h _; cases b <;> simp [natkeyLt] at h ⊢
  | cons x xs ih =>
      intro b h h2
      cases b with
      | nil => simp [natkeyLt] at h2
      | cons y ys =>
          simp only [natkeyLt] at h h2
          by_cases hxy : natTokLt x y = true
          · simp [hxy] at h
          · replace hxy : natTokLt x y = false := by
              cases hval : natTokLt x y
              · rfl
              · exact absurd hval hxy
            by_cases hyx : natTokLt y x = true
            · simp [hyx] at h2
            · replace hyx : natTokLt y x = false := by
                cases hval : natTokLt y x
                · rfl
                · exact absurd hval hyx
              simp only [hxy, hyx, if_false] at h h2
              rw [natTokLt_conn hxy hyx, ih h h2]

theorem natkeyLt_trans : ∀ {a b c : List NatTok},
    natkeyLt a b = true → natkeyLt b c = true → natkeyLt a c = true := by
  intro a
  induction a with
  | nil =>
      intro b c h h2
      cases b with
      | nil => simp [natkeyLt] at h
      | cons y ys => cases c with
        | nil => simp [natkeyLt] at h2
        | cons z zs => simp [natkeyLt]
  | cons x xs ih =>
      intro b c h h2
      cases b with
      | nil => simp [natkeyLt] at h
      | cons y ys =>
          cases c with
          | nil => simp [natkeyLt] at h2
          | cons z zs =>
              simp only [natkeyLt] at h h2 ⊢
              by_cases hxy : natTokLt x y = true <;> by_cases hyz : natTokLt y z = true
              · simp [natTokLt_trans hxy hyz]
              · replace hyz : natTokLt y z = false := by
                  cases hval : natTokLt y z
                  · rfl
                  · exact absurd hval hyz
                by_cases hzy : natTokLt z y = true
                · simp [hyz, hzy] at h2
                · have hyzEq : y = z := natTokLt_conn hyz (by
                    cases hval : natTokLt z y
                    · rfl
                    · exact absurd hval hzy)
                  rw [← hyzEq]
                  simp [hxy]
              · replace hxy : natTokLt x y = false := by
                  cases hval : natTokLt x y
                  · rfl
                  · exact absurd hval hxy
                by_cases hyx : natTokLt y x = true
                · simp [hxy, hyx] at h
                · have hxyEq : x = y := natTokLt_conn hxy (by
                    cases hval : natTokLt y x
                    · rfl
                    · exact absurd hval hyx)
                  rw [hxyEq]
                  simp [hyz]
              · replace hxy : natTokLt x y = false := by
                  cases hval : natTokLt x y
                  · rfl
                  · exact absurd hval hxy
                replace hyz : natTokLt y z = false := by
                  cases hval : natTokLt y z
                  · rfl
                  · exact absurd hval hyz
                by_cases hyx : natTokLt y x = true
                · simp [hxy, hyx] at h
                · by_cases hzy : natTokLt z y = true
                  · simp [hyz, hzy] at h2
                  · have hxyEq : x = y := natTokLt_conn hxy (by
                      cases hval : natTokLt y x
                      · rfl
                      · exact absurd hval hyx)
                    simp only [hxy, hyx, if_false] at h
                    simp only [hyz, hzy, if_false] at h2
                    subst hxyEq
                    replace hzy : natTokLt z x = false := by
                      cases hval : natTokLt z x
                      · rfl
                      · exact absurd hval hzy
                    simp [hyz, hzy, ih h h2]

/-! ## Rule-pack data model and merge (src/app/rulepack_merge.py lines 12-28)

Rule-packs and articles are Python dicts.  The data model of the spec
fixes their field schema, so they are embedded as structures whose
fields are `Option`-valued: `none` means the key is absent from the
dict.  The `domain` value may itself be the Python `None`, hence the
doubled Option.  The float `confidence` is opaque to the merge (it is
only copied), so it is carried as an integer token.  Keys outside the
schema would be copied opaquely by the merge exactly like `title`,
so restricting to the schema loses no behaviour. -/

structure Article where
  article_id : Option String
  title : Option String
  text : Option String
  domain : Option (Option String)
  confidence : Option Int
deriving DecidableEq, Repr

/-- Python `dict.setdefault` / key presence choice: the first dict wins
when the key is present there (whatever its value), else the second
value is used. -/
def keyOr (fst snd : Option α) : Option α :=
  match fst with
  | some v => some v
  | none => snd

/-- Python `{**old, **new}` on two articles: for each key, the value of
`new` when the key is present there, else the value of `old`. -/
def overrideArt (old new : Article) : Article :=
  ⟨keyOr new.article_id old.article_id, keyOr new.title old.title,
   keyOr new.text old.text, keyOr new.domain old.domain,
   keyOr new.confidence old.confidence⟩

def emptyArt : Article := ⟨none, none, none, none, none⟩

/-- Python dict assignment `d[k] = v` on an insertion-ordered dict keyed
by `article_id`: if some entry already has id `k`, its value is replaced
in place (position kept); otherwise the new entry is appended. -/
def upsertById (d : List Article) (k : String) (v : Article) : List Article :=
  match d with
  | [] => [v]
  | x :: xs => if x.article_id = some k then v :: xs else x :: upsertById xs k v

/-- Python `d.get(k)` on the same dict: first entry whose id is `k`. -/
def lookupById (d : List Article) (k : String) : Option Article :=
  d.find? (fun x => x.article_id == some k)

/-- Embedding of the dict comprehension
`ex_index = {a["article_id"]: a for a in out.get("articles", []) if "article_id" in a}`:
articles without the key are skipped, duplicate ids keep the first
position with the last value (Python dict semantics). -/
def buildIdx (arts : List Article) : List Article :=
  arts.foldl (fun d a =>
    match a.article_id with
    | some k => upsertById d k a
    | none => d) []

/-- Body of the incoming loop of `merge_rulepacks`: for a new article
with a truthy `article_id`, `ex_index[aid] = {**ex_index.get(aid, {}), **art}`;
articles with a falsy id (absent or the empty string) are skipped. -/
def mergeStep (d : List Article) (a : Article) : List Article :=
  match a.article_id with
  | some k =>
      if k = "" then d
      else upsertById d k (overrideArt ((lookupById d k).getD emptyArt) a)
  | none => d

/-- Embedding of the incoming loop of `merge_rulepacks`. -/
def applyInc (d : List Article) (inc : List Article) : List Article :=
  inc.foldl mergeStep d

def akey (a : Article) : List NatTok := _natkey (a.article_id.getD "")

/-- Sort relation used by `sorted(ex_index.values(), key=lambda a: _natkey(...))`. -/
def artLE (a b : Article) : Prop := natkeyLt (akey b) (akey a) = false

instance : DecidableRel artLE := fun a b => instDecidableEqBool _ _

instance : IsTotal Article artLE where
  total a b := by
    unfold artLE
    cases h : natkeyLt (akey b) (akey a)
    · exact Or.inl rfl
    · exact Or.inr (natkeyLt_asymm h)

instance : IsTrans Article artLE where
  trans a b c h h2 := by
    unfold artLE at h h2 ⊢
    cases hv : natkeyLt (akey c) (akey a)
    · rfl
    · exfalso
      cases hv2 : natkeyLt (akey c) (akey b)
      · cases hv3 : natkeyLt (akey b) (akey c)
        · rw [← natkeyLt_conn hv2 hv3] at h
          rw [h] at hv
          exact Bool.noConfusion hv
        · have := natkeyLt_trans hv3 hv
          rw [this] at h
          exact Bool.noConfusion h
      · rw [hv2] at h2
        exact Bool.noConfusion h2

/-- Articles part of the merge: build the index of existing articles,
fold in the incoming ones, and sort the values by natural key.  Python
`sorted` is a stable sort, and the output of a stable sort is uniquely
determined by the comparison, so the stable `List.insertionSort` is an
exact embedding of it. -/
def mergeArticles (ex inc : List Article) : List Article :=
  List.insertionSort artLE (applyInc (buildIdx ex) inc)

/-- Python `str.upper()` (ASCII model, matching the `Char.toUpper`
mapping per character). -/
def pyUpper (s : String) : String := String.mk (s.data.map Char.toUpper)

structure DomainRef where
  id : String
  name : String
deriving DecidableEq, Repr

structure Rulepack where
  id : Option String
  jurisdiction : Option String
  name : Option String
  domains : Option (List DomainRef)
  articles : Option (List Article)
deriving DecidableEq, Repr

/-- Embedding of `merge_rulepacks` (src/app/rulepack_merge.py lines 12-28).
Returns `none` when the Python call raises: the line
`out.setdefault("name", new.get("name", out.get("id", "").upper()))`
eagerly evaluates its default argument, and when the previously stored
`out["id"]` is `None` (neither input had an id) `None.upper()` raises
`AttributeError`. -/
def merge_rulepacks (existing incoming : Rulepack) : Option Rulepack :=
  match keyOr existing.id incoming.id with
  | none => none
  | some i =>
      some {
        id := some i
        jurisdiction := some (existing.jurisdiction.getD (incoming.jurisdiction.getD ""))
        name := some (existing.name.getD (incoming.name.getD (pyUpper i)))
        domains := some (match existing.domains with
          | some l => if l = [] then incoming.domains.getD [] else l
          | none => incoming.domains.getD [])
        articles := some (mergeArticles (existing.articles.getD [])
          (incoming.articles.getD [])) }

/-! ### Dict-merge algebra -/

theorem keyOr_none_right : ∀ (o : Option α), keyOr o none = o
  | some _ => rfl
  | none => rfl

theorem keyOr_none_left (o : Option α) : keyOr none o = o := rfl

theorem keyOr_absorb : ∀ (x b : Option α), keyOr (keyOr x b) b = keyOr x b
  | some _, _ => rfl
  | none, some _ => rfl
  | none, none => rfl

theorem keyOr_assoc : ∀ (a x b : Option α), keyOr a (keyOr x b) = keyOr (keyOr a x) b
  | some _, _, _ => rfl
  | none, some _, _ => rfl
  | none, none, _ => rfl

theorem overrideArt_empty (a : Article) : overrideArt a emptyArt = a := by
  cases a
  simp [overrideArt, emptyArt, keyOr_none_left]

theorem overrideArt_absorb (b x : Article) :
    overrideArt b (overrideArt b x) = overrideArt b x := by
  cases b; cases x
  simp [overrideArt, keyOr_absorb]

theorem overrideArt_assoc (b x a : Article) :
    overrideArt (overrideArt b x) a = overrideArt b (overrideArt x a) := by
  cases b; cases x; cases a
  simp [overrideArt, keyOr_assoc]

theorem overrideArt_id (old new : Article) :
    (overrideArt old new).article_id = keyOr new.article_id old.article_id := rfl

/-- Well-formedness of the article dict: every entry has the id key, and
ids are pairwise distinct. -/
def IdOk (d : List Article) : Prop :=
  (∀ a ∈ d, a.article_id.isSome) ∧ (d.map Article.article_id).Nodup

theorem lookupById_eq_none (d : List Article) (k : String) :
    lookupById d k = none ↔ ∀ x ∈ d, x.article_id ≠ some k := by
  unfold lookupById
  rw [List.find?_eq_none]
  constructor
  · intro h x hx
    have := h x hx
    simpa using this
  · intro h x hx
    simpa using h x hx

theorem lookupById_mem {d : List Article} {k : String} {x : Article}
    (h : lookupById d k = some x) : x ∈ d ∧ x.article_id = some k := by
  unfold lookupById at h
  refine ⟨List.mem_of_find?_eq_some h, ?_⟩
  have := List.find?_some h
  simpa using this

/-- Shape of dict assignment when the key is present: the first entry
with id `k` is replaced in place. -/
theorem upsertById_found {d : List Article} {k : String} {x : Article}
    (h : lookupById d k = some x) :
    ∃ d1 d2, d = d1 ++ x :: d2 ∧ (∀ y ∈ d1, y.article_id ≠ some k) ∧
      ∀ v, upsertById d k v = d1 ++ v :: d2 := by
  induction d with
  | nil => simp [lookupById] at h
  | cons a d ih =>
      by_cases ha : a.article_id = some k
      · have hax : a = x := by
          unfold lookupById at h
          rw [List.find?_cons_of_pos _ (by simpa using ha)] at h
          exact (Option.some.inj h)
        refine ⟨[], d, by rw [hax]; rfl, by simp, fun v => ?_⟩
        simp [upsertById, ha]
      · have h2 : lookupById d k = some x := by
          unfold lookupById at h ⊢
          rwa [List.find?_cons_of_neg _ (by simpa using ha)] at h
        obtain ⟨d1, d2, hd, hd1, hup⟩ := ih h2
        refine ⟨a :: d1, d2, by rw [hd]; rfl, ?_, fun v => ?_⟩
        · intro y hy
          rcases List.mem_cons.mp hy with rfl | hy2
          · exact ha
          · exact hd1 y hy2
        · simp [upsertById, ha, hup v]

theorem upsertById_notfound {d : List Article} {k : String}
    (h : lookupById d k = none) (v : Article) : upsertById d k v = d ++ [v] := by
  induction d with
  | nil => rfl
  | cons a d ih =>
      have ha : a.article_id ≠ some k := ((lookupById_eq_none _ _).mp h) a (by simp)
      have h2 : lookupById d k = none := by
        rw [lookupById_eq_none]
        intro x hx
        exact ((lookupById_eq_none _ _).mp h) x (by simp [hx])
      simp [upsertById, ha, ih h2]

theorem lookup_upsert_self {d : List Article} {k : String} {v : Article}
    (hv : v.article_id = some k) : lookupById (upsertById d k v) k = some v := by
  cases h : lookupById d k with
  | none =>
      rw [upsertById_notfound h v]
      unfold lookupById
      rw [List.find?_append]
      have : lookupById d k = none := h
      unfold lookupById at this
      rw [this]
      simp [lookupById, hv]
  | some x =>
      obtain ⟨d1, d2, _, hd1, hup⟩ := upsertById_found h
      rw [hup v]
      unfold lookupById
      rw [List.find?_append]
      have hnone : List.find? (fun x => x.article_id == some k) d1 = none := by
        rw [List.find?_eq_none]
        intro y hy
        simpa using hd1 y hy
      rw [hnone]
      simp [hv]

theorem lookup_upsert_ne {d : List Article} {k2 k : String} {v : Article}
    (hv : v.article_id = some k2) (hne : k2 ≠ k) :
    lookupById (upsertById d k2 v) k = lookupById d k := by
  cases h : lookupById d k2 with
  | none =>
      rw [upsertById_notfound h v]
      unfold lookupById
      rw [List.find?_append]
      have hvk : (v.article_id == some k) = false := by simp [hv, hne]
      cases h2 : List.find? (fun x => x.article_id == some k) d with
      | some y => rfl
      | none => simp [List.find?, hvk]
  | some x =>
      obtain ⟨d1, d2, hd, _, hup⟩ := upsertById_found h
      have hx : x.article_id = some k2 := (lookupById_mem h).2
      rw [hup v, hd]
      unfold lookupById
      rw [List.find?_append, List.find?_append]
      have h1 : (x.article_id == some k) = false := by simp [hx, hne]
      have h2 : (v.article_id == some k) = false := by simp [hv, hne]
      simp [h1, h2]

theorem overrideArt_empty_left (a : Article) : overrideArt emptyArt a = a := by
  cases a
  simp [overrideArt, emptyArt, keyOr_none_right]

theorem lookup_none_iff {d : List Article} {k : String} :
    lookupById d k = none ↔ some k ∉ d.map Article.article_id := by
  rw [lookupById_eq_none]
  constructor
  · intro h hmem
    obtain ⟨x, hx, hid⟩ := List.mem_map.mp hmem
    exact h x hx hid
  · intro h x hx hid
    exact h (List.mem_map.mpr ⟨x, hx, hid⟩)

/-! ### Well-formedness preservation -/

theorem IdOk_nil : IdOk [] := ⟨by simp, by simp⟩

theorem IdOk_upsert {d : List Article} {k : String} {v : Article}
    (h : IdOk d) (hv : v.article_id = some k) : IdOk (upsertById d k v) := by
  obtain ⟨hsome, hnodup⟩ := h
  cases hl : lookupById d k with
  | none =>
      rw [upsertById_notfound hl v]
      constructor
      · intro a ha
        rcases List.mem_append.mp ha with ha | ha
        · exact hsome a ha
        · simp at ha
          rw [ha, hv]
          rfl
      · rw [List.map_append]
        simp only [List.map_cons, List.map_nil]
        rw [List.nodup_append]
        refine ⟨hnodup, List.nodup_singleton _, ?_⟩
        intro i hi hi2
        simp only [List.mem_singleton] at hi2
        subst hi2
        rw [hv] at hi
        exact (lookup_none_iff.mp hl) hi
  | some x =>
      obtain ⟨d1, d2, hd, _, hup⟩ := upsertById_found hl
      have hx : x.article_id = some k := (lookupById_mem hl).2
      rw [hup v]
      constructor
      · intro a ha
        rcases List.mem_append.mp ha with ha | ha
        · exact hsome a (by rw [hd]; exact List.mem_append.mpr (Or.inl ha))
        · rcases List.mem_cons.mp ha with rfl | ha
          · rw [hv]; rfl
          · exact hsome a (by rw [hd]; simp [ha])
      · have : (d1 ++ v :: d2).map Article.article_id = d.map Article.article_id := by
          rw [hd]
          simp [hv, hx]
        rw [this]
        exact hnodup

theorem IdOk_mergeStep {d : List Article} (h : IdOk d) (a : Article) :
    IdOk (mergeStep d a) := by
  unfold mergeStep
  cases ha : a.article_id with
  | none => exact h
  | some k =>
      by_cases hk : k = ""
      · simp [hk]; exact h
      · simp only [hk, if_false]
        apply IdOk_upsert h
        rw [overrideArt_id, ha]
        rfl

theorem IdOk_applyInc {d : List Article} (h : IdOk d) (inc : List Article) :
    IdOk (applyInc d inc) := by
  induction inc generalizing d with
  | nil => exact h
  | cons a inc ih =>
      show IdOk (applyInc (mergeStep d a) inc)
      exact ih (IdOk_mergeStep h a)

theorem IdOk_buildIdx (arts : List Article) : IdOk (buildIdx arts) := by
  have main : ∀ (l : List Article) (d : List Article), IdOk d →
      IdOk (l.foldl (fun d a =>
        match a.article_id with
        | some k => upsertById d k a
        | none => d) d) := by
    intro l
    induction l with
    | nil => intro d h; exact h
    | cons a l ih =>
        intro d h
        rw [List.foldl_cons]
        apply ih
        cases ha : a.article_id with
        | none => simpa [ha] using h
        | some k => simpa [ha] using IdOk_upsert h ha
  exact main arts [] IdOk_nil

/-! ### The extension relation and the decomposition of `applyInc` -/

/-- Relation between an entry of the base dict and its value after some
incoming updates: the id is unchanged, the new value extends the old one
field-wise, and entries keyed by the empty string are never touched. -/
def Ext (b u : Article) : Prop :=
  u.article_id = b.article_id ∧ (∃ x, u = overrideArt b x) ∧
    (b.article_id = some "" → u = b)

theorem Ext_refl (b : Article) : Ext b b :=
  ⟨rfl, ⟨emptyArt, (overrideArt_empty b).symm⟩, fun _ => rfl⟩

theorem Ext_trans {a b c : Article} (h1 : Ext a b) (h2 : Ext b c) : Ext a c := by
  obtain ⟨hid1, ⟨x, hx⟩, he1⟩ := h1
  obtain ⟨hid2, ⟨y, hy⟩, he2⟩ := h2
  refine ⟨hid2.trans hid1, ⟨overrideArt x y, ?_⟩, ?_⟩
  · rw [hy, hx, overrideArt_assoc]
  · intro ha
    have hb := he1 ha
    have : b.article_id = some "" := by rw [hid1, ha]
    rw [he2 this, hb]

theorem forall2_ext_trans : ∀ {l1 l2 l3 : List Article},
    List.Forall₂ Ext l1 l2 → List.Forall₂ Ext l2 l3 → List.Forall₂ Ext l1 l3 := by
  intro l1
  induction l1 with
  | nil =>
      intro l2 l3 h1 h2
      rw [List.forall₂_nil_left_iff] at h1
      subst h1
      rw [List.forall₂_nil_left_iff] at h2
      subst h2
      exact List.Forall₂.nil
  | cons a l1 ih =>
      intro l2 l3 h1 h2
      cases h1 with
      | cons hab h1tl =>
          cases h2 with
          | cons hbc h2tl => exact List.Forall₂.cons (Ext_trans hab hbc) (ih h1tl h2tl)

theorem forall2_ext_map_id {l u : List Article} (h : List.Forall₂ Ext l u) :
    l.map Article.article_id = u.map Article.article_id := by
  induction h with
  | nil => rfl
  | cons hr _ ih =>
      simp only [List.map_cons, ih]
      rw [hr.1]

theorem forall2_snoc_left {R : Article → Article → Prop} :
    ∀ {d : List Article} {a : Article} {u : List Article},
    List.Forall₂ R (d ++ [a]) u → ∃ u1 x, u = u1 ++ [x] ∧ List.Forall₂ R d u1 ∧ R a x := by
  intro d
  induction d with
  | nil =>
      intro a u h
      simp only [List.nil_append] at h
      cases h with
      | cons hr htl =>
          rw [List.forall₂_nil_left_iff] at htl
          subst htl
          exact ⟨[], _, rfl, List.Forall₂.nil, hr⟩
  | cons b d ih =>
      intro a u h
      rw [List.cons_append] at h
      cases h with
      | cons hr htl =>
          obtain ⟨u1, x, hu, hf, hx⟩ := ih htl
          exact ⟨_ :: u1, x, by rw [hu]; rfl, List.Forall₂.cons hr hf, hx⟩

theorem mergeStep_cases (d : List Article) (a : Article) :
    List.Forall₂ Ext d (mergeStep d a) ∨
      ∃ k, a.article_id = some k ∧ k ≠ "" ∧ lookupById d k = none ∧
        mergeStep d a = d ++ [a] := by
  unfold mergeStep
  cases ha : a.article_id with
  | none => exact Or.inl (List.forall₂_same.mpr (fun x _ => Ext_refl x))
  | some k =>
      by_cases hk : k = ""
      · simp only [hk, if_true]
        exact Or.inl (List.forall₂_same.mpr (fun x _ => Ext_refl x))
      · simp only [hk, if_false]
        cases hl : lookupById d k with
        | none =>
            refine Or.inr ⟨k, rfl, hk, hl, ?_⟩
            rw [Option.getD_none, overrideArt_empty_left, upsertById_notfound hl a]
        | some x =>
            obtain ⟨d1, d2, hd, _, hup⟩ := upsertById_found hl
            have hx : x.article_id = some k := (lookupById_mem hl).2
            rw [Option.getD_some, hup (overrideArt x a), hd]
            left
            refine List.rel_append (List.forall₂_same.mpr (fun y _ => Ext_refl y)) ?_
            refine List.Forall₂.cons ?_ (List.forall₂_same.mpr (fun y _ => Ext_refl y))
            refine ⟨?_, ⟨a, rfl⟩, ?_⟩
            · rw [overrideArt_id, ha, hx]
              rfl
            · intro habs
              rw [hx] at habs
              exact absurd (Option.some.inj habs) hk

/-- Decomposition of the incoming pass: it rewrites the values of the
base dict in place (relation `Ext`, same key order) and appends entries
for the genuinely new non-empty ids. -/
theorem applyInc_decomp : ∀ (inc d : List Article), IdOk d →
    ∃ u e, applyInc d inc = u ++ e ∧ List.Forall₂ Ext d u ∧
      ∀ a ∈ e, ∃ k, a.article_id = some k ∧ k ≠ "" ∧ lookupById d k = none := by
  intro inc
  induction inc with
  | nil =>
      intro d _
      exact ⟨d, [], by simp [applyInc], List.forall₂_same.mpr (fun x _ => Ext_refl x), by simp⟩
  | cons a inc ih =>
      intro d hd
      have hstep : applyInc d (a :: inc) = applyInc (mergeStep d a) inc := rfl
      rcases mergeStep_cases d a with hF | ⟨k, hid, hk, hnone, heq⟩
      · obtain ⟨u, e, happ, hu, he⟩ := ih (mergeStep d a) (IdOk_mergeStep hd a)
        refine ⟨u, e, by rw [hstep, happ], forall2_ext_trans hF hu, ?_⟩
        intro x hx
        obtain ⟨k, hk1, hk2, hk3⟩ := he x hx
        refine ⟨k, hk1, hk2, ?_⟩
        rw [lookup_none_iff] at hk3 ⊢
        rwa [forall2_ext_map_id hF]
      · have hd2 : IdOk (d ++ [a]) := by
          obtain ⟨hsome, hnodup⟩ := hd
          constructor
          · intro x hx
            rcases List.mem_append.mp hx with hx | hx
            · exact hsome x hx
            · simp at hx
              rw [hx, hid]
              rfl
          · rw [List.map_append]
            simp only [List.map_cons, List.map_nil]
            rw [List.nodup_append]
            refine ⟨hnodup, List.nodup_singleton _, ?_⟩
            intro i hi hi2
            simp only [List.mem_singleton] at hi2
            subst hi2
            rw [hid] at hi
            exact (lookup_none_iff.mp hnone) hi
        obtain ⟨u, e, happ, hu, he⟩ := ih (d ++ [a]) hd2
        rw [heq] at hstep
        obtain ⟨u1, x, husplit, hf, hx⟩ := forall2_snoc_left hu
        refine ⟨u1, x :: e, ?_, hf, ?_⟩
        · rw [hstep, happ, husplit]
          simp
        · intro y hy
          rcases List.mem_cons.mp hy with rfl | hy2
          · exact ⟨k, hx.1.trans hid, hk, hnone⟩
          · obtain ⟨k2, hk1, hk2, hk3⟩ := he y hy2
            refine ⟨k2, hk1, hk2, ?_⟩
            rw [lookup_none_iff] at hk3 ⊢
            intro hmem
            exact hk3 (by rw [List.map_append]; exact List.mem_append.mpr (Or.inl hmem))

/-! ### Evaluating `applyInc` on a list with pairwise distinct ids -/

/-- Value taken by each base entry after folding in a list `M` whose ids
are pairwise distinct: the entry keyed `k` is overridden by the unique
`M`-element with id `k`, if any. -/
def mapUpd (d M : List Article) : List Article :=
  d.map (fun b =>
    match b.article_id with
    | some k =>
        if k = "" then b
        else
          match lookupById M k with
          | some m => overrideArt b m
          | none => b
    | none => b)

/-- Elements of `M` that create new entries: truthy id, not present in
the base dict. -/
def filterNew (d M : List Article) : List Article :=
  M.filter (fun m =>
    match m.article_id with
    | some k => !(k == "") && (lookupById d k).isNone
    | none => false)

theorem lookup_cons_ne {m : Article} {M : List Article} {k : String}
    (h : m.article_id ≠ some k) : lookupById (m :: M) k = lookupById M k := by
  unfold lookupById
  rw [List.find?_cons_of_neg _ (by simpa using h)]

theorem lookup_cons_self {m : Article} {M : List Article} {k : String}
    (h : m.article_id = some k) : lookupById (m :: M) k = some m := by
  unfold lookupById
  rw [List.find?_cons_of_pos _ (by simpa using h)]

theorem lookup_snoc_ne {d : List Article} {m : Article} {k : String}
    (h : m.article_id ≠ some k) : lookupById (d ++ [m]) k = lookupById d k := by
  unfold lookupById
  rw [List.find?_append]
  cases h2 : List.find? (fun x => x.article_id == some k) d with
  | some y => rfl
  | none =>
      have hb : (m.article_id == some k) = false := by simpa using h
      simp [List.find?, hb]

theorem applyInc_eval : ∀ (M d : List Article), IdOk d →
    (∀ m ∈ M, m.article_id.isSome) → (M.map Article.article_id).Nodup →
    applyInc d M = mapUpd d M ++ filterNew d M := by
  intro M
  induction M with
  | nil =>
      intro d _ _ _
      have hmap : mapUpd d [] = d := by
        unfold mapUpd
        conv_rhs => rw [← List.map_id d]
        apply List.map_congr_left
        intro b _
        cases hb : b.article_id with
        | none => rfl
        | some k =>
            by_cases hk : k = ""
            · simp [hk]
            · simp [hk, lookupById]
      simp [applyInc, filterNew, hmap]
  | cons m M ih =>
      intro d hd hsome hnodup
      have hstep : applyInc d (m :: M) = applyInc (mergeStep d m) M := rfl
      have hMsome : ∀ x ∈ M, x.article_id.isSome := fun x hx => hsome x (by simp [hx])
      have hMnodup : (M.map Article.article_id).Nodup := by
        simpa using hnodup.of_cons
      cases hm : m.article_id with
      | none =>
          exfalso
          have := hsome m (by simp)
          rw [hm] at this
          exact Bool.noConfusion this
      | some k =>
          have hknotM : some k ∉ M.map Article.article_id := by
            rw [List.map_cons, hm] at hnodup
            exact (List.nodup_cons.mp hnodup).1
          have hlookM : lookupById M k = none := lookup_none_iff.mpr hknotM
          by_cases hk : k = ""
          -- skipped element: id is the empty string
          · subst hk
            have hstep2 : mergeStep d m = d := by unfold mergeStep; rw [hm]; simp
            rw [hstep, hstep2, ih d hd hMsome hMnodup]
            have hmap : mapUpd d (m :: M) = mapUpd d M := by
              unfold mapUpd
              apply List.map_congr_left
              intro b _
              cases hb : b.article_id with
              | none => rfl
              | some k2 =>
                  by_cases hk2 : k2 = ""
                  · simp [hk2]
                  · have : m.article_id ≠ some k2 := by
                      rw [hm]
                      intro hcon
                      exact hk2 (Option.some.inj hcon).symm
                    simp only [hk2, if_false, lookup_cons_ne this]
            have hfil : filterNew d (m :: M) = filterNew d M := by
              unfold filterNew
              rw [List.filter_cons]
              simp [hm]
            rw [hmap, hfil]
          · cases hl : lookupById d k with
            | some x =>
                have hx : x.article_id = some k := (lookupById_mem hl).2
                obtain ⟨d1, d2, hdeq, hd1, hup⟩ := upsertById_found hl
                have hstep2 : mergeStep d m = d1 ++ overrideArt x m :: d2 := by
                  unfold mergeStep
                  rw [hm]
                  simp only [hk, if_false]
                  rw [hl, Option.getD_some, hup (overrideArt x m)]
                have hov_id : (overrideArt x m).article_id = some k := by
                  rw [overrideArt_id, hm]; rfl
                have hd2ne : ∀ y ∈ d2, y.article_id ≠ some k := by
                  obtain ⟨_, hnd⟩ := hd
                  rw [hdeq, List.map_append, List.map_cons, hx] at hnd
                  have hnd2 := hnd.of_append_right
                  have := (List.nodup_cons.mp hnd2).1
                  intro y hy hcon
                  exact this (by rw [← hcon]; exact List.mem_map_of_mem _ hy)
                have hIdOk2 : IdOk (mergeStep d m) := IdOk_mergeStep hd m
                rw [hstep, ih (mergeStep d m) hIdOk2 hMsome hMnodup]
                have hmap : mapUpd (mergeStep d m) M = mapUpd d (m :: M) := by
                  rw [hstep2, hdeq]
                  unfold mapUpd
                  rw [List.map_append, List.map_append, List.map_cons, List.map_cons]
                  congr 1
                  · apply List.map_congr_left
                    intro y hy
                    cases hy2 : y.article_id with
                    | none => rfl
                    | some k2 =>
                        by_cases hk2 : k2 = ""
                        · simp [hk2]
                        · have hne : k2 ≠ k := by
                            intro hcon
                            exact hd1 y hy (by rw [hy2, hcon])
                          have : m.article_id ≠ some k2 := by
                            rw [hm]
                            intro hcon
                            exact hne (Option.some.inj hcon).symm
                          simp only [hk2, if_false, lookup_cons_ne this]
                  · congr 1
                    · simp only [hov_id, hx, hk, if_false, hlookM, lookup_cons_self hm]
                    · apply List.map_congr_left
                      intro y hy
                      cases hy2 : y.article_id with
                      | none => rfl
                      | some k2 =>
                          by_cases hk2 : k2 = ""
                          · simp [hk2]
                          · have hne : k2 ≠ k := by
                              intro hcon
                              exact hd2ne y hy (by rw [hy2, hcon])
                            have : m.article_id ≠ some k2 := by
                              rw [hm]
                              intro hcon
                              exact hne (Option.some.inj hcon).symm
                            simp only [hk2, if_false, lookup_cons_ne this]
                have hfil : filterNew (mergeStep d m) M = filterNew d (m :: M) := by
                  unfold filterNew
                  rw [List.filter_cons]
                  have hmfalse : (match m.article_id with
                      | some k => !(k == "") && (lookupById d k).isNone
                      | none => false) = false := by
                    simp [hm, hl]
                  rw [hmfalse]
                  simp only [Bool.false_eq_true, if_false]
                  apply List.filter_congr
                  intro y hy
                  cases hy2 : y.article_id with
                  | none => rfl
                  | some k2 =>
                      have hne : k2 ≠ k := by
                        intro hcon
                        apply hknotM
                        have hyk : y.article_id = some k := by rw [hy2, hcon]
                        rw [← hyk]
                        exact List.mem_map_of_mem _ hy
                      have hlook : lookupById (mergeStep d m) k2 = lookupById d k2 := by
                        rw [hstep2, hdeq]
                        have h1 : (overrideArt x m).article_id ≠ some k2 := by
                          rw [hov_id]
                          intro hcon
                          exact hne (Option.some.inj hcon).symm
                        have h2 : x.article_id ≠ some k2 := by
                          rw [hx]
                          intro hcon
                          exact hne (Option.some.inj hcon).symm
                        unfold lookupById
                        rw [List.find?_append, List.find?_append]
                        rw [List.find?_cons_of_neg _ (by simpa using h1),
                          List.find?_cons_of_neg _ (by simpa using h2)]
                      simp [hlook]
                rw [hmap, hfil]
            | none =>
                have hstep2 : mergeStep d m = d ++ [m] := by
                  unfold mergeStep
                  rw [hm]
                  simp only [hk, if_false]
                  rw [hl, Option.getD_none, overrideArt_empty_left,
                    upsertById_notfound hl m]
                have hIdOk2 : IdOk (mergeStep d m) := IdOk_mergeStep hd m
                rw [hstep, ih (mergeStep d m) hIdOk2 hMsome hMnodup]
                have hnok : ∀ y ∈ d, y.article_id ≠ some k := (lookupById_eq_none _ _).mp hl
                have hmap : mapUpd (mergeStep d m) M = mapUpd d (m :: M) ++ [m] := by
                  rw [hstep2]
                  unfold mapUpd
                  rw [List.map_append, List.map_cons, List.map_nil]
                  congr 1
                  · apply List.map_congr_left
                    intro y hy
                    cases hy2 : y.article_id with
                    | none => rfl
                    | some k2 =>
                        by_cases hk2 : k2 = ""
                        · simp [hk2]
                        · have hne : k2 ≠ k := by
                            intro hcon
                            exact hnok y hy (by rw [hy2, hcon])
                          have : m.article_id ≠ some k2 := by
                            rw [hm]
                            intro hcon
                            exact hne (Option.some.inj hcon).symm
                          simp only [hk2, if_false, lookup_cons_ne this]
                  · rw [hm]
                    simp only [hk, if_false]
                    rw [hlookM]
                have hfil : m :: filterNew (mergeStep d m) M = filterNew d (m :: M) := by
                  unfold filterNew
                  rw [List.filter_cons]
                  have hmtrue : (match m.article_id with
                      | some k => !(k == "") && (lookupById d k).isNone
                      | none => false) = true := by
                    simp [hm, hl, hk]
                  rw [hmtrue]
                  simp only [if_true]
                  congr 1
                  apply List.filter_congr
                  intro y hy
                  cases hy2 : y.article_id with
                  | none => rfl
                  | some k2 =>
                      have hne : k2 ≠ k := by
                        intro hcon
                        apply hknotM
                        have hyk : y.article_id = some k := by rw [hy2, hcon]
                        rw [← hyk]
                        exact List.mem_map_of_mem _ hy
                      have hlook : lookupById (mergeStep d m) k2 = lookupById d k2 := by
                        rw [hstep2]
                        apply lookup_snoc_ne
                        rw [hm]
                        intro hcon
                        exact hne (Option.some.inj hcon).symm
                      simp [hlook]
                rw [hmap, ← hfil]
                simp

/-! ### Stable sort lemmas

Python `sorted` is stable; a stable sort result is uniquely determined
by the comparison relation, so Mathlib `List.insertionSort` (which
inserts each element after all earlier, comparison-equal ones) embeds
it exactly. -/

section SortLemmas

variable {α : Type} (r : α → α → Prop) [DecidableRel r]

theorem orderedInsert_eq_cons {s : List α} {a : α} (h : ∀ c ∈ s, r a c) :
    s.orderedInsert r a = a :: s := by
  cases s with
  | nil => rfl
  | cons c s =>
      unfold List.orderedInsert
      rw [if_pos (h c (by simp))]

theorem filter_orderedInsert [IsTrans α r] (p : α → Bool) :
    ∀ {l : List α}, l.Sorted r → ∀ (a : α),
    (l.orderedInsert r a).filter p =
      if p a then (l.filter p).orderedInsert r a else l.filter p := by
  intro l
  induction l with
  | nil =>
      intro _ a
      by_cases hpa : p a <;> simp [List.orderedInsert, List.filter, hpa]
  | cons b l ih =>
      intro hs a
      have hstail : l.Sorted r := hs.of_cons
      have hbl : ∀ c ∈ l, r b c := List.rel_of_sorted_cons hs
      by_cases hab : r a b
      · rw [List.orderedInsert, if_pos hab]
        by_cases hpa : p a
        · have hcons : ((b :: l).filter p).orderedInsert r a = a :: (b :: l).filter p := by
            apply orderedInsert_eq_cons
            intro c hc
            have hc2 : c ∈ b :: l := List.mem_of_mem_filter hc
            rcases List.mem_cons.mp hc2 with rfl | hc3
            · exact hab
            · exact Trans.trans hab (hbl c hc3)
          rw [if_pos hpa, hcons]
          rw [List.filter_cons, if_pos hpa]
        · rw [if_neg hpa]
          rw [List.filter_cons, if_neg (by simpa using hpa)]
      · rw [List.orderedInsert, if_neg hab]
        rw [List.filter_cons, List.filter_cons]
        by_cases hpb : p b
        · rw [if_pos hpb, if_pos hpb]
          rw [ih hstail a]
          by_cases hpa : p a
          · rw [if_pos hpa, if_pos hpa]
            rw [List.orderedInsert, if_neg hab]
          · rw [if_neg hpa, if_neg hpa]
        · rw [if_neg hpb, if_neg hpb]
          rw [ih hstail a]

theorem filter_insertionSort [IsTotal α r] [IsTrans α r] (p : α → Bool) (l : List α) :
    (l.insertionSort r).filter p = (l.filter p).insertionSort r := by
  induction l with
  | nil => rfl
  | cons a l ih =>
      rw [List.insertionSort]
      rw [filter_orderedInsert r p (List.sorted_insertionSort r l) a]
      rw [List.filter_cons]
      by_cases hpa : p a
      · rw [if_pos hpa, if_pos hpa, ih, List.insertionSort]
      · rw [if_neg hpa, if_neg (by simpa using hpa), ih]

theorem insertionSort_append (P Q : List α) :
    (P ++ Q).insertionSort r = P.foldr (fun a s => s.orderedInsert r a) (Q.insertionSort r) := by
  induction P with
  | nil => rfl
  | cons a P ih =>
      rw [List.cons_append, List.insertionSort, ih]
      rfl

theorem insertionSort_idem [IsTotal α r] [IsTrans α r] (l : List α) :
    (l.insertionSort r).insertionSort r = l.insertionSort r :=
  (List.sorted_insertionSort r l).insertionSort_eq

theorem insertionSort_append_sorted_right [IsTotal α r] [IsTrans α r] (P Q : List α) :
    (P ++ Q.insertionSort r).insertionSort r = (P ++ Q).insertionSort r := by
  rw [insertionSort_append, insertionSort_append, insertionSort_idem]

end SortLemmas

/-- First element of a duplicate-free-by-id list with a given id is
found by `lookupById`. -/
theorem lookup_of_mem_nodup : ∀ {M : List Article} {w : Article} {k : String},
    (M.map Article.article_id).Nodup → w ∈ M → w.article_id = some k →
    lookupById M k = some w := by
  intro M
  induction M with
  | nil => intro w k _ hw _; simp at hw
  | cons h M ih =>
      intro w k hnodup hw hid
      by_cases hhk : h.article_id = some k
      · rw [lookup_cons_self hhk]
        rcases List.mem_cons.mp hw with rfl | hw2
        · rfl
        · exfalso
          rw [List.map_cons, hhk] at hnodup
          exact (List.nodup_cons.mp hnodup).1 (by rw [← hid]; exact List.mem_map_of_mem _ hw2)
      · rw [lookup_cons_ne hhk]
        rcases List.mem_cons.mp hw with rfl | hw2
        · exact absurd hid hhk
        · exact ih (by simpa using hnodup.of_cons) hw2 hid

theorem map_eq_of_forall2 {R : Article → Article → Prop} {f : Article → Article} :
    ∀ {l u : List Article}, List.Forall₂ R l u →
    (∀ a ∈ l, ∀ b ∈ u, R a b → f a = b) → l.map f = u := by
  intro l
  induction l with
  | nil =>
      intro u h _
      rw [List.forall₂_nil_left_iff] at h
      rw [h]
      rfl
  | cons a l ih =>
      intro u h hf
      cases h with
      | cons hab htl =>
          rw [List.map_cons]
          congr 1
          · exact hf a (by simp) _ (by simp) hab
          · exact ih htl (fun x hx b hb hr => hf x (by simp [hx]) b (by simp [hb]) hr)

/-- Idempotence of the article merge: folding the already-merged article
list back into the same base is the identity. -/
theorem mergeArticles_idem (ex inc : List Article) :
    mergeArticles ex (mergeArticles ex inc) = mergeArticles ex inc := by
  have hD0 : IdOk (buildIdx ex) := IdOk_buildIdx ex
  have hDp : IdOk (applyInc (buildIdx ex) inc) := IdOk_applyInc hD0 inc
  obtain ⟨u, e, hsplit, hu, he⟩ := applyInc_decomp inc (buildIdx ex) hD0
  have hperm : List.Perm ((applyInc (buildIdx ex) inc).insertionSort artLE)
      (applyInc (buildIdx ex) inc) := List.perm_insertionSort artLE _
  have hMsome : ∀ m ∈ (applyInc (buildIdx ex) inc).insertionSort artLE,
      m.article_id.isSome := fun m hm => hDp.1 m (hperm.mem_iff.mp hm)
  have hMnodup : (((applyInc (buildIdx ex) inc).insertionSort artLE).map
      Article.article_id).Nodup := ((hperm.map Article.article_id).nodup_iff).mpr hDp.2
  have heval := applyInc_eval ((applyInc (buildIdx ex) inc).insertionSort artLE)
    (buildIdx ex) hD0 hMsome hMnodup
  -- the in-place part reproduces `u`
  have hmap : mapUpd (buildIdx ex) ((applyInc (buildIdx ex) inc).insertionSort artLE) = u := by
    unfold mapUpd
    apply map_eq_of_forall2 hu
    intro b hb w hw hext
    obtain ⟨hid, ⟨x, hx⟩, hemp⟩ := hext
    have hbsome := hD0.1 b hb
    cases hbid : b.article_id with
    | none => rw [hbid] at hbsome; exact Bool.noConfusion hbsome
    | some k =>
        by_cases hk : k = ""
        · subst hk
          simpa using (hemp hbid).symm
        · simp only [hk, if_false]
          have hwM : w ∈ (applyInc (buildIdx ex) inc).insertionSort artLE := by
            rw [hperm.mem_iff, hsplit]
            exact List.mem_append.mpr (Or.inl hw)
          have hwid : w.article_id = some k := by rw [hid, hbid]
          rw [lookup_of_mem_nodup hMnodup hwM hwid]
          show overrideArt b w = w
          rw [hx]
          exact overrideArt_absorb b x
  -- the appended part is the sorted list of new entries
  have hfil : filterNew (buildIdx ex) ((applyInc (buildIdx ex) inc).insertionSort artLE)
      = e.insertionSort artLE := by
    unfold filterNew
    rw [filter_insertionSort]
    rw [hsplit, List.filter_append]
    have hufil : u.filter (fun m => match m.article_id with
        | some k => !(k == "") && (lookupById (buildIdx ex) k).isNone
        | none => false) = [] := by
      rw [List.filter_eq_nil_iff]
      intro w hw
      cases hwid : w.article_id with
      | none => simp
      | some k =>
          simp only [hwid, Bool.and_eq_true, Bool.not_eq_true]
          intro hcon
          have hmem : some k ∈ (buildIdx ex).map Article.article_id := by
            rw [forall2_ext_map_id hu]
            rw [← hwid]
            exact List.mem_map_of_mem _ hw
          rcases hcon with ⟨_, hnone⟩
          rw [Option.isNone_iff_eq_none] at hnone
          exact (lookup_none_iff.mp hnone) hmem
    have hefil : e.filter (fun m => match m.article_id with
        | some k => !(k == "") && (lookupById (buildIdx ex) k).isNone
        | none => false) = e := by
      rw [List.filter_eq_self]
      intro a ha
      obtain ⟨k, hk1, hk2, hk3⟩ := he a ha
      simp [hk1, hk2, hk3]
    rw [hufil, hefil, List.nil_append]
  show ((applyInc (buildIdx ex)
      ((applyInc (buildIdx ex) inc).insertionSort artLE)).insertionSort artLE) = _
  rw [heval, hmap, hfil]
  rw [insertionSort_append_sorted_right, ← hsplit]
  rfl

end AIX

namespace AIX

/-- C1: for every pair of rule-packs A and B, merging is idempotent:
`merge_rulepacks(A, merge_rulepacks(A, B))` equals `merge_rulepacks(A, B)`
exactly — the same top-level fields, the same articles with the same
field values, in the same order.  The composition is stated with
`Option.bind` so that the (unreachable for well-formed rule-packs) case
in which the inner merge raises is covered as well: then both sides
denote the same raised computation. -/
theorem getD_getD (o : Option α) (x : α) : o.getD (o.getD x) = o.getD x := by
  cases o <;> rfl

theorem merge_rulepacks_idempotent (A B : Rulepack) :
    (merge_rulepacks A B).bind (fun M => merge_rulepacks A M) = merge_rulepacks A B := by
  cases h : keyOr A.id B.id with
  | none =>
      unfold merge_rulepacks
      rw [h]
      rfl
  | some i =>
      have hid2 : keyOr A.id (some i) = some i := by
        cases hA : A.id with
        | none => rfl
        | some a =>
            rw [hA] at h
            exact h
      simp only [merge_rulepacks, h, Option.some_bind, hid2, Option.some.injEq,
        Rulepack.mk.injEq, Option.getD_some]
      refine ⟨trivial, getD_getD _ _, getD_getD _ _, ?_, mergeArticles_idem _ _⟩
      cases hA : A.domains with
      | none => rfl
      | some l =>
          by_cases hl : l = []
          · simp [hl]
          · simp [hl]

/-! ## C5: where the top-level fields come from -/

/-- Presence with a non-empty string value. -/
def strFieldNonempty (o : Option String) : Bool :=
  match o with
  | some s => !(s == "")
  | none => false

/-- Presence with a non-empty list value. -/
def domsFieldNonempty (o : Option (List DomainRef)) : Bool :=
  match o with
  | some l => !l.isEmpty
  | none => false

/-- The property asserted by claim C5 as stated: each of `id`,
`jurisdiction`, `name` and `domains` is taken from `existing` when
present and non-empty there, and otherwise from `incoming`. -/
def c5Claim (A B M : Rulepack) : Prop :=
  (M.id = if strFieldNonempty A.id then A.id else B.id) ∧
  (M.jurisdiction = if strFieldNonempty A.jurisdiction then A.jurisdiction else B.jurisdiction) ∧
  (M.name = if strFieldNonempty A.name then A.name else B.name) ∧
  (M.domains = if domsFieldNonempty A.domains then A.domains else B.domains)

def c5A : Rulepack :=
  ⟨some "", some "j", some "n", some [⟨"aml_kyc", "Aml Kyc"⟩], some []⟩

def c5B : Rulepack :=
  ⟨some "x", some "j2", some "n2", some [], some []⟩

def c5M : Rulepack :=
  ⟨some "", some "j", some "n", some [⟨"aml_kyc", "Aml Kyc"⟩], some []⟩

/-- Counterexample to C5 as stated: when the existing rule-pack has
`id` present but EMPTY (`""`), `merge_rulepacks` keeps the empty
existing id (`setdefault` decides by key presence alone), while the
claim requires the incoming `"x"` to win. -/
theorem c5_counterexample :
    merge_rulepacks c5A c5B = some c5M ∧ ¬ c5Claim c5A c5B c5M := by
  constructor
  · decide
  · unfold c5Claim
    decide

/-- C5 amended: `id`, `jurisdiction` and `name` are taken from
`existing` on key PRESENCE alone (an existing empty value wins too);
when the key is absent they come from `incoming`, with defaults `""`
for `jurisdiction` and the upper-cased merged id for `name`.  Only
`domains` follows the claimed present-AND-non-empty rule (Python
truthiness): an existing empty list loses to `incoming`. -/
theorem c5_amended (A B M : Rulepack) (h : merge_rulepacks A B = some M) :
    (∀ v, A.id = some v → M.id = some v) ∧
    (A.id = none → M.id = B.id) ∧
    (∀ v, A.jurisdiction = some v → M.jurisdiction = some v) ∧
    (A.jurisdiction = none → M.jurisdiction = some (B.jurisdiction.getD "")) ∧
    (∀ v, A.name = some v → M.name = some v) ∧
    (A.name = none → M.name = some (B.name.getD (pyUpper ((keyOr A.id B.id).getD "")))) ∧
    (∀ l, A.domains = some l → l ≠ [] → M.domains = some l) ∧
    ((A.domains = none ∨ A.domains = some []) → M.domains = some (B.domains.getD [])) := by
  cases hke : keyOr A.id B.id with
  | none =>
      unfold merge_rulepacks at h
      rw [hke] at h
      exact absurd h (by simp)
  | some i =>
      unfold merge_rulepacks at h
      rw [hke] at h
      simp only [Option.some.injEq] at h
      subst h
      refine ⟨?_, ?_, ?_, ?_, ?_, ?_, ?_, ?_⟩
      · intro v hv
        show some i = some v
        rw [← hke, hv]
        rfl
      · intro hnone
        show some i = B.id
        rw [← hke, hnone]
        rfl
      · intro v hv
        show some (A.jurisdiction.getD (B.jurisdiction.getD "")) = some v
        rw [hv]
        rfl
      · intro hnone
        show some (A.jurisdiction.getD (B.jurisdiction.getD ""))
          = some (B.jurisdiction.getD "")
        rw [hnone]
        rfl
      · intro v hv
        show some (A.name.getD (B.name.getD (pyUpper i))) = some v
        rw [hv]
        rfl
      · intro hnone
        show some (A.name.getD (B.name.getD (pyUpper i)))
          = some (B.name.getD (pyUpper ((some i).getD "")))
        rw [hnone]
        rfl
      · intro l hl hlne
        show some (match A.domains with
          | some l => if l = [] then B.domains.getD [] else l
          | none => B.domains.getD []) = some l
        rw [hl]
        simp [hlne]
      · intro hd
        rcases hd with hd | hd
        · show some (match A.domains with
            | some l => if l = [] then B.domains.getD [] else l
            | none => B.domains.getD []) = _
          rw [hd]
        · show some (match A.domains with
            | some l => if l = [] then B.domains.getD [] else l
            | none => B.domains.getD []) = _
          rw [hd]
          simp

def c5wA : Rulepack := ⟨some "r", none, none, none, none⟩

def c5wB : Rulepack := ⟨some "x", some "J", none, some [⟨"governance", "Governance"⟩], none⟩

def c5wM : Rulepack :=
  ⟨some "r", some "J", some "R", some [⟨"governance", "Governance"⟩], some []⟩

theorem c5_amended_witness :
    c5wM.id = some "r" ∧ c5wM.jurisdiction = some "J" ∧ c5wM.name = some "R" ∧
      c5wM.domains = some [⟨"governance", "Governance"⟩] := by
  have h := c5_amended c5wA c5wB c5wM (by decide)
  exact ⟨h.1 "r" rfl, h.2.2.2.1 rfl, by
    have := h.2.2.2.2.2.1 rfl
    simpa using this, h.2.2.2.2.2.2.2 (Or.inl rfl)⟩

/-! ## C8: merged articles are ordered by the natural key -/

def c8A : Rulepack :=
  ⟨some "r", none, none, none,
    some [⟨some "2", none, none, none, none⟩, ⟨some "10", none, none, none, none⟩,
      ⟨some "1.1", none, none, none, none⟩, ⟨some "1.2", none, none, none, none⟩]⟩

def c8B : Rulepack := ⟨none, none, none, none, none⟩

/-- C8: the articles of a merged rule-pack are sorted by the natural key
`_natkey` of `article_id` (split on digit runs; numeric tokens compare
as integers, text tokens lexicographically — the relation `artLE`); in
particular merging a pack whose article ids are
`["2", "10", "1.1", "1.2"]` orders them `["1.1", "1.2", "2", "10"]`. -/
theorem c8_natural_order :
    (∀ A B M, merge_rulepacks A B = some M → (M.articles.getD []).Pairwise artLE) ∧
    ((merge_rulepacks c8A c8B).elim [] (fun M => (M.articles.getD []).map Article.article_id)
      = [some "1.1", some "1.2", some "2", some "10"]) := by
  constructor
  · intro A B M h
    cases hke : keyOr A.id B.id with
    | none =>
        unfold merge_rulepacks at h
        rw [hke] at h
        exact absurd h (by simp)
    | some i =>
        unfold merge_rulepacks at h
        rw [hke] at h
        simp only [Option.some.injEq] at h
        subst h
        show (mergeArticles _ _).Pairwise artLE
        exact List.sorted_insertionSort artLE _
  · decide

theorem c8_witness :
    ((⟨some "r", some "", some "R", some [], some (mergeArticles
      [⟨some "2", none, none, none, none⟩, ⟨some "10", none, none, none, none⟩,
        ⟨some "1.1", none, none, none, none⟩, ⟨some "1.2", none, none, none, none⟩]
      [])⟩ : Rulepack).articles.getD []).Pairwise artLE := by
  exact c8_natural_order.1 c8A c8B _ (by decide)

/-! ## Segmentation (src/app/model_rulepack.py lines 102-155)

Text is a `List Char`, positions are character offsets, matching Python
string indexing.  The two segmentation regexes `RE_ARTICLE` and
`RE_SECTION` are embedded as explicit backtracking matchers over a
suffix of the text.  Greedy sub-patterns whose continuation can never
match a character of their own class are implemented maximally with no
backtracking, which is observationally identical to the CPython engine:
the leading `\s*`, the `\s*` after the keyword and the `\s*` before the
separator are followed by a letter/digit/separator test that fails on
every whitespace character, and `\d+(?:\.\d+)*` is followed by the
separator alternation, which fails on a digit or a dot.  The `\s*`
directly before the title does backtrack (the title class `[^\n]` does
match whitespace), as does the keyword alternation and the separator
alternation.  The trailing `(?P<title>[^\n]{1,120})$` succeeds exactly
when the remainder of the line has length 1..120 and the greedy title
is that whole remainder. -/

/-- Python `\s` / `str.strip` whitespace, ASCII range. -/
def isPySpace (c : Char) : Bool :=
  c == ' ' || c == '\t' || c == '\n' || c == '\r' || c == '\x0b' || c == '\x0c'

def countWhile (p : Char → Bool) : List Char → Nat
  | [] => 0
  | c :: rest => if p c then countWhile p rest + 1 else 0

/-- Python `str.strip()`. -/
def pyStrip (l : List Char) : List Char :=
  ((l.dropWhile isPySpace).reverse.dropWhile isPySpace).reverse

/-- Python slice `t[a:b]`. -/
def sliceList (t : List Char) (a b : Nat) : List Char := (t.drop a).take (b - a)

def wsRun (s : List Char) : Nat := countWhile isPySpace s

def digRun (s : List Char) : Nat := countWhile Char.isDigit s

/-- Characters until the next newline or the end of text:
the longest possible `[^\n]*` run. -/
def lineRun (s : List Char) : Nat := countWhile (fun c => !(c == '\n')) s

def litPre : List Char → List Char → Bool
  | [], _ => true
  | _ :: _, [] => false
  | a :: as, b :: bs => a == b && litPre as bs

/-- Length consumed by the greedy `(?:\.\d+)*` (fuel-driven; each
iteration consumes at least two characters, so fuel `length + 1`
never runs out). -/
def dotDigitsRunF : Nat → List Char → Nat
  | 0, _ => 0
  | fuel + 1, s =>
      match s with
      | '.' :: rest =>
          let d := digRun rest
          if d = 0 then 0 else 1 + d + dotDigitsRunF fuel (rest.drop d)
      | _ => 0

def dotDigitsRun (s : List Char) : Nat := dotDigitsRunF (s.length + 1) s

/-- Candidate positions after the optional keyword group
`(?:(?:Article|ART\.?|ARTICLE)\s*)?` of `RE_ARTICLE`, in backtracking
preference order; the final candidate skips the group. -/
def kwCands (s0 : List Char) (e1 : Nat) : List Nat :=
  let s1 := s0.drop e1
  ((["Article".data, "ART.".data, "ART".data, "ARTICLE".data].filter
      (fun lit => litPre lit s1)).map
    (fun lit => e1 + lit.length + wsRun (s1.drop lit.length))) ++ [e1]

/-- Candidate title-start positions after the separator
`(?:\s*[:\-–]\s*|\s+)`, in backtracking preference order. -/
def sepCands (s0 : List Char) (e3 : Nat) : List Nat :=
  let w1 := wsRun (s0.drop e3)
  let alt1 :=
    match s0.drop (e3 + w1) with
    | c :: _ =>
        if c == ':' || c == '-' || c == '–' then
          let b := e3 + w1 + 1
          let w2 := wsRun (s0.drop b)
          (List.range (w2 + 1)).map (fun j => b + w2 - j)
        else []
    | [] => []
  let alt2 := (List.range w1).map (fun j => e3 + w1 - j)
  alt1 ++ alt2

/-- The title piece `(?P<title>[^\n]{1,120})$` at a given position:
succeeds exactly on a line remainder of length 1..120. -/
def titleAt (s0 : List Char) (q4 : Nat) : Option (Nat × List Char) :=
  let s4 := s0.drop q4
  let r := lineRun s4
  if 1 ≤ r ∧ r ≤ 120 then some (q4 + r, s4.take r) else none

/-- Match of `RE_ARTICLE` anchored at the start of the suffix `s0`
(which the caller guarantees is a line start): returns relative end
position and the `num` and `title` captures. -/
def matchArticleAt (s0 : List Char) : Option (Nat × List Char × List Char) :=
  let e1 := wsRun s0
  (kwCands s0 e1).findSome? (fun q =>
    let s2 := s0.drop q
    let d := digRun s2
    if d = 0 then none
    else
      let numLen := d + dotDigitsRun (s2.drop d)
      let numCap := s2.take numLen
      (sepCands s0 (q + numLen)).findSome? (fun q4 =>
        (titleAt s0 q4).map (fun te => (te.1, numCap, te.2))))

/-- The tail `\s*[:\-–]\s*(?P<title>[^\n]{1,120})$` of `RE_SECTION`
starting at position `e3`: maximal whitespace, a separator character,
then backtracking whitespace before the title. -/
def colonTitle (s0 : List Char) (e3 : Nat) (numCap : List Char) :
    Option (Nat × List Char × List Char) :=
  match s0.drop (e3 + wsRun (s0.drop e3)) with
  | c :: _ =>
      if c == ':' || c == '-' || c == '–' then
        let b := e3 + wsRun (s0.drop e3) + 1
        let w2 := wsRun (s0.drop b)
        ((List.range (w2 + 1)).map (fun j => b + w2 - j)).findSome? (fun q4 =>
          (titleAt s0 q4).map (fun te => (te.1, numCap, te.2)))
      else none
  | [] => none

/-- Match of `RE_SECTION` anchored at the start of the suffix `s0`. -/
def matchSectionAt (s0 : List Char) : Option (Nat × List Char × List Char) :=
  let e1 := wsRun s0
  let s1 := s0.drop e1
  (["Section".data, "SECTION".data].filter (fun lit => litPre lit s1)).findSome?
    (fun lit =>
      let q0 := e1 + lit.length
      let w := wsRun (s0.drop q0)
      if w = 0 then none
      else
        let q := q0 + w
        let d := digRun (s0.drop q)
        if d = 0 then none
        else colonTitle s0 (q + d) ((s0.drop q).take d))

structure RMatch where
  mstart : Nat
  mstop : Nat
  num : List Char
  title : List Char
deriving DecidableEq, Repr

def headIsNl : List Char → Bool
  | c :: _ => c == '\n'
  | [] => false

/-- Embedding of `re.finditer` for a multiline-anchored pattern: scan
every position left to right, attempt the pattern only where `^`
matches (offset 0 or just after a newline), and resume scanning at the
end of each non-overlapping match (one past it if it were empty). -/
def finditerAux (m : List Char → Option (Nat × List Char × List Char)) :
    Nat → Nat → Bool → List Char → List RMatch
  | 0, _, _, _ => []
  | fuel + 1, p, ls, s =>
      match s with
      | [] => []
      | _ :: rest =>
          if ls then
            match m s with
            | some (e, num, title) =>
                let adv := max 1 e
                { mstart := p, mstop := p + e, num := num, title := title } ::
                  finditerAux m fuel (p + adv) ((s.drop (adv - 1)).headD ' ' == '\n')
                    (s.drop adv)
            | none => finditerAux m fuel (p + 1) (headIsNl s) rest
          else finditerAux m fuel (p + 1) (headIsNl s) rest

def finditerArticle (t : List Char) : List RMatch :=
  finditerAux matchArticleAt (t.length + 1) 0 true t

def finditerSection (t : List Char) : List RMatch :=
  finditerAux matchSectionAt (t.length + 1) 0 true t

structure Segment where
  article_id : List Char
  title : List Char
  text : List Char
  start : Nat
  stop : Nat
deriving DecidableEq, Repr

/-- Strategy 1 of `segment`: one segment per `RE_ARTICLE` heading whose
body (text between this heading and the next, stripped) is non-empty. -/
def articleSegsAux (t : List Char) (n : Nat) : List RMatch → List Segment
  | [] => []
  | m :: rest =>
      let e := match rest with
        | m2 :: _ => m2.mstart
        | [] => n
      let body := pyStrip (sliceList t m.mstop e)
      (if body.isEmpty then []
       else [{ article_id := pyStrip m.num, title := pyStrip m.title, text := body,
               start := m.mstop, stop := e }]) ++ articleSegsAux t n rest

def articleSegs (t : List Char) : List Segment :=
  articleSegsAux t t.length (finditerArticle t)

/-- Embedding of `re.split(r"\n{2,}", body)`: split at each maximal run
of two or more newlines. -/
def splitBlankAux : Nat → List Char → List Char → List (List Char)
  | _, cur, [] => [cur.reverse]
  | 0, cur, _ => [cur.reverse]
  | fuel + 1, cur, s =>
      match s with
      | '\n' :: '\n' :: rest =>
          cur.reverse :: splitBlankAux fuel [] (rest.dropWhile (fun c => c == '\n'))
      | c :: rest => splitBlankAux fuel (c :: cur) rest
      | [] => [cur.reverse]

def splitBlank (s : List Char) : List (List Char) := splitBlankAux (s.length + 1) [] s

def natRepr (n : Nat) : List Char := (toString n).data

/-- Paragraph segments of one section, with ids `{sec}.{j+1}` and the
`(part k)` title suffix for k > 1; all paragraphs carry the span of the
whole section body. -/
def sectionParasAux (secId secTitle : List Char) (a b : Nat) :
    Nat → List (List Char) → List Segment
  | _, [] => []
  | j, p :: rest =>
      { article_id := secId ++ '.' :: natRepr (j + 1),
        title := if j = 0 then secTitle
          else secTitle ++ (" (part ".data ++ natRepr (j + 1) ++ [')']),
        text := p, start := a, stop := b } :: sectionParasAux secId secTitle a b (j + 1) rest

/-- Strategy 2 of `segment`: section headings, bodies split on blank
lines into paragraphs. -/
def sectionSegsAux (t : List Char) (n : Nat) : List RMatch → List Segment
  | [] => []
  | m :: rest =>
      let e := match rest with
        | m2 :: _ => m2.mstart
        | [] => n
      let body := pyStrip (sliceList t m.mstop e)
      let paras := ((splitBlank body).map pyStrip).filter (fun p => !p.isEmpty)
      sectionParasAux (pyStrip m.num) (pyStrip m.title) m.mstop e 0 paras ++
        sectionSegsAux t n rest

def sectionSegs (t : List Char) : List Segment :=
  sectionSegsAux t t.length (finditerSection t)

/-- Loop of `_fixed_windows` at the only instantiation used by
`segment`: `win_chars = 2000`, `overlap = 200`.  Each continuing
iteration advances the window start by exactly 1800 characters, so fuel
`length + 1` never runs out. -/
def fixedWindowsAux (t : List Char) (n : Nat) : Nat → Nat → Nat → List Segment
  | 0, _, _ => []
  | fuel + 1, s, k =>
      if s < n then
        let e := min n (s + 2000)
        let chunk := pyStrip (sliceList t s e)
        let segHere : List Segment :=
          if chunk.isEmpty then []
          else [{ article_id := 'F' :: natRepr k, title := "Fragment ".data ++ natRepr k,
                  text := chunk, start := s, stop := e }]
        let k2 := if chunk.isEmpty then k else k + 1
        if n ≤ e then segHere
        else segHere ++ fixedWindowsAux t n fuel (e - 200) k2
      else []

def _fixed_windows (t : List Char) : List Segment :=
  fixedWindowsAux t t.length (t.length + 1) 0 1

/-- Embedding of `RulepackGenerator.segment`
(src/app/model_rulepack.py lines 102-139). -/
def segment (t : List Char) : List Segment :=
  if t.isEmpty || (pyStrip t).isEmpty then []
  else
    let s1 := articleSegs t
    if !s1.isEmpty then s1
    else
      let s2 := sectionSegs t
      if !s2.isEmpty then s2
      else _fixed_windows t

/-! ## C7: the cascade never mixes strategies -/

/-- Case analysis of the cascade in `segment`: shared helper. -/
theorem segment_cases (t : List Char) :
    (segment t = [] ∧ (t = [] ∨ pyStrip t = [])) ∨
    (articleSegs t ≠ [] ∧ segment t = articleSegs t) ∨
    (articleSegs t = [] ∧ sectionSegs t ≠ [] ∧ segment t = sectionSegs t) ∨
    (articleSegs t = [] ∧ sectionSegs t = [] ∧ segment t = _fixed_windows t) := by
  unfold segment
  by_cases h0 : t.isEmpty || (pyStrip t).isEmpty
  · left
    rw [if_pos h0]
    refine ⟨rfl, ?_⟩
    rcases Bool.or_eq_true_iff.mp h0 with h | h
    · exact Or.inl (List.isEmpty_iff.mp h)
    · exact Or.inr (List.isEmpty_iff.mp h)
  · right
    rw [if_neg h0]
    by_cases h1 : articleSegs t = []
    · right
      by_cases h2 : sectionSegs t = []
      · right
        refine ⟨h1, h2, ?_⟩
        simp [h1, h2]
      · left
        refine ⟨h1, h2, ?_⟩
        have h2b : (sectionSegs t).isEmpty = false := by
          simpa [List.isEmpty_iff] using h2
        simp [h1, h2b]
    · left
      have h1b : (articleSegs t).isEmpty = false := by
        simpa [List.isEmpty_iff] using h1
      refine ⟨h1, ?_⟩
      simp [h1b]

/-- C7: the result of one `segment` call comes from exactly one
strategy.  If the input is empty or whitespace-only the result is
empty; otherwise, when the heading-numbered-article strategy yields at
least one segment it is returned and the later strategies contribute
nothing; the section fallback is used exactly when strategy 1 yields no
segments, and the fixed windows exactly when both heading strategies
yield none. -/
theorem segment_single_strategy (t : List Char) :
    (segment t = [] ∧ (t = [] ∨ pyStrip t = [])) ∨
    (articleSegs t ≠ [] ∧ segment t = articleSegs t) ∨
    (articleSegs t = [] ∧ sectionSegs t ≠ [] ∧ segment t = sectionSegs t) ∨
    (articleSegs t = [] ∧ sectionSegs t = [] ∧ segment t = _fixed_windows t) :=
  segment_cases t

/-! ## C10: the fixed-window fallback terminates -/

/-- Window-count bound for the fixed-window loop, by induction on the
fuel: every continuing iteration moves the start forward by exactly
1800 characters. -/
theorem fixedWindowsAux_length (t : List Char) (n : Nat) :
    ∀ (fuel s k : Nat), 1800 * (fixedWindowsAux t n fuel s k).length ≤ (n - s) + 1800 := by
  intro fuel
  induction fuel with
  | zero => intro s k; simp [fixedWindowsAux]
  | succ fuel ih =>
      intro s k
      unfold fixedWindowsAux
      by_cases hs : s < n
      · rw [if_pos hs]
        dsimp only
        by_cases hc : (pyStrip (sliceList t s (min n (s + 2000)))).isEmpty = true
        · rw [if_pos hc, if_pos hc]
          by_cases he : n ≤ min n (s + 2000)
          · rw [if_pos he]
            simp
          · rw [if_neg he]
            have he2 : min n (s + 2000) - 200 = s + 1800 := by omega
            rw [he2, List.nil_append]
            have hrec := ih (s + 1800) k
            omega
        · rw [if_neg hc, if_neg hc]
          by_cases he : n ≤ min n (s + 2000)
          · rw [if_pos he]
            simp only [List.length_cons, List.length_nil]
            omega
          · rw [if_neg he]
            have he2 : min n (s + 2000) - 200 = s + 1800 := by omega
            rw [he2, List.singleton_append]
            have hrec := ih (s + 1800) (k + 1)
            simp only [List.length_cons]
            omega
      · rw [if_neg hs]
        simp

/-- C10: the fixed-window fallback is total.  Each continuing loop
iteration (window end short of the text end) advances the next window
start by exactly `win_chars - overlap = 2000 - 200 = 1800 > 0`
characters, and consequently the number of emitted windows is bounded:
`1800 * count ≤ length + 1800`, so `_fixed_windows` (and with it
`segment`) is a total function. -/
theorem fixed_windows_total :
    (∀ n s : Nat, s < n → s + 2000 < n → min n (s + 2000) - 200 = s + 1800) ∧
    (∀ t : List Char, 1800 * (_fixed_windows t).length ≤ t.length + 1800) := by
  constructor
  · intro n s _ h2
    omega
  · intro t
    have := fixedWindowsAux_length t t.length (t.length + 1) 0 1
    simpa using this

theorem fixed_windows_total_witness :
    min 4000 (0 + 2000) - 200 = 0 + 1800 ∧
      1800 * (_fixed_windows ("ab".data)).length ≤ ("ab".data).length + 1800 := by
  exact ⟨fixed_windows_total.1 4000 0 (by decide) (by decide),
    fixed_windows_total.2 ("ab".data)⟩

/-! ## C9: `segment` is total and empty exactly on blank input -/

theorem pyStrip_eq_nil {l : List Char} :
    pyStrip l = [] ↔ ∀ c ∈ l, isPySpace c = true := by
  unfold pyStrip
  rw [List.reverse_eq_nil_iff, List.dropWhile_eq_nil_iff]
  constructor
  · intro h c hc
    have hsplit : l.takeWhile isPySpace ++ l.dropWhile isPySpace = l :=
      List.takeWhile_append_dropWhile _ _
    rw [← hsplit] at hc
    rcases List.mem_append.mp hc with hc | hc
    · exact List.mem_takeWhile_imp hc
    · exact h c (List.mem_reverse.mpr hc)
  · intro h c hc
    have : c ∈ l.dropWhile isPySpace := List.mem_reverse.mp hc
    exact h c ((List.dropWhile_sublist _).subset this)

theorem mem_slice {t : List Char} {s e p : Nat} (hp : p < t.length)
    (hsp : s ≤ p) (hpe : p < e) : t[p] ∈ sliceList t s e := by
  unfold sliceList
  have hlen : p - s < ((t.drop s).take (e - s)).length := by
    simp only [List.length_take, List.length_drop]
    omega
  have hval : ((t.drop s).take (e - s))[p - s] = t[p] := by
    rw [List.getElem_take _]
    rw [List.getElem_drop _]
    congr 1
    omega
  rw [← hval]
  exact List.getElem_mem hlen

/-- When a non-whitespace character sits at or beyond the current
window start, the fixed-window loop emits at least one segment. -/
theorem fixedWindowsAux_ne_nil (t : List Char) :
    ∀ (fuel s k p : Nat) (hp : p < t.length), t.length ≤ s + 1800 * fuel → s ≤ p →
    isPySpace (t[p]) = false → fixedWindowsAux t t.length fuel s k ≠ [] := by
  intro fuel
  induction fuel with
  | zero =>
      intro s k p hp hfuel hsp _
      omega
  | succ fuel ih =>
      intro s k p hp hfuel hsp hnw
      have hs : s < t.length := by omega
      unfold fixedWindowsAux
      rw [if_pos hs]
      dsimp only
      by_cases hc : (pyStrip (sliceList t s (min t.length (s + 2000)))).isEmpty = true
      · rw [if_pos hc, if_pos hc]
        -- the whole window is whitespace, so the witness char lies beyond it
        have hep : min t.length (s + 2000) ≤ p := by
          by_contra hlt
          push_neg at hlt
          have hmem : t[p] ∈ sliceList t s (min t.length (s + 2000)) :=
            mem_slice hp hsp hlt
          have hws := (pyStrip_eq_nil.mp (List.isEmpty_iff.mp hc)) _ hmem
          rw [hws] at hnw
          exact Bool.noConfusion hnw
        have he : ¬ t.length ≤ min t.length (s + 2000) := by omega
        rw [if_neg he, List.nil_append]
        have he2 : min t.length (s + 2000) = s + 2000 := by omega
        refine ih (min t.length (s + 2000) - 200) k p hp ?_ ?_ hnw
        · omega
        · omega
      · rw [if_neg hc, if_neg hc]
        by_cases he : t.length ≤ min t.length (s + 2000)
        · rw [if_pos he]
          simp
        · rw [if_neg he]
          simp

/-- C9: `segment` is a total function (the embedding is a Lean function,
and the Python code can raise no exception on any string input), and it
returns the empty list exactly when the input is empty or consists only
of whitespace. -/
theorem segment_empty_iff (t : List Char) :
    segment t = [] ↔ (t = [] ∨ ∀ c ∈ t, isPySpace c = true) := by
  unfold segment
  by_cases h0 : (t.isEmpty || (pyStrip t).isEmpty) = true
  · rw [if_pos h0]
    simp only [true_iff]
    rcases Bool.or_eq_true_iff.mp h0 with h | h
    · exact Or.inl (List.isEmpty_iff.mp h)
    · exact Or.inr (pyStrip_eq_nil.mp (List.isEmpty_iff.mp h))
  · rw [if_neg h0]
    have h0f : (t.isEmpty || (pyStrip t).isEmpty) = false := by
      cases hb : (t.isEmpty || (pyStrip t).isEmpty)
      · rfl
      · exact absurd hb h0
    have h0s := Bool.or_eq_false_iff.mp h0f
    have htne : t ≠ [] := by
      intro hcon
      have h1 := h0s.1
      rw [hcon] at h1
      simp at h1
    have hstripne : pyStrip t ≠ [] := by
      intro hcon
      have h2 := h0s.2
      rw [hcon] at h2
      simp at h2
    have hrhs : ¬ (t = [] ∨ ∀ c ∈ t, isPySpace c = true) := by
      rintro (hcon | hcon)
      · exact htne hcon
      · exact hstripne (pyStrip_eq_nil.mpr hcon)
    dsimp only
    by_cases h1 : (articleSegs t).isEmpty = false
    · rw [if_pos (by simpa using h1)]
      simp only [iff_false, hrhs, iff_false_intro hrhs]
      simpa [List.isEmpty_iff] using h1
    · have h1e : articleSegs t = [] := by
        rcases hb : (articleSegs t).isEmpty with hv | hv
        · exact absurd hb h1
        · exact List.isEmpty_iff.mp hb
      rw [if_neg (by simpa using h1)]
      by_cases h2 : (sectionSegs t).isEmpty = false
      · rw [if_pos (by simpa using h2)]
        rw [iff_false_intro hrhs]
        simpa [List.isEmpty_iff] using h2
      · have h2e : sectionSegs t = [] := by
          rcases hb : (sectionSegs t).isEmpty with hv | hv
          · exact absurd hb h2
          · exact List.isEmpty_iff.mp hb
        rw [if_neg (by simpa using h2)]
        rw [iff_false_intro hrhs, iff_false]
        -- the fixed windows are non-empty: take any non-whitespace char
        have hex : ∃ c ∈ t, isPySpace c = false := by
          by_contra hall
          push_neg at hall
          apply hstripne
          rw [pyStrip_eq_nil]
          intro c hc
          rcases hv : isPySpace c with hv2 | hv2
          · exact absurd (hall c hc) (by rw [hv]; simp)
          · rfl
        obtain ⟨c, hcmem, hcw⟩ := hex
        obtain ⟨p, hp, hpc⟩ := List.mem_iff_getElem.mp hcmem
        unfold _fixed_windows
        exact fixedWindowsAux_ne_nil t (t.length + 1) 0 1 p hp (by omega) (by omega)
          (by rw [hpc]; exact hcw)

theorem segment_empty_iff_witness :
    segment (" \n\t".data) = [] ↔ (" \n\t".data = [] ∨ ∀ c ∈ " \n\t".data, isPySpace c = true) :=
  segment_empty_iff _

/-! ## C3: spans of the produced segments -/

theorem countWhile_le (p : Char → Bool) : ∀ (s : List Char), countWhile p s ≤ s.length := by
  intro s
  induction s with
  | nil => simp [countWhile]
  | cons c rest ih =>
      unfold countWhile
      by_cases hc : p c = true
      · rw [if_pos hc]
        simpa using ih
      · rw [if_neg hc]
        simp

theorem titleAt_bounds {s0 : List Char} {q4 : Nat} {te : Nat × List Char}
    (h : titleAt s0 q4 = some te) : 1 ≤ te.1 ∧ te.1 ≤ s0.length := by
  unfold titleAt at h
  by_cases hcond : 1 ≤ lineRun (s0.drop q4) ∧ lineRun (s0.drop q4) ≤ 120
  · rw [if_pos hcond] at h
    have hrle : lineRun (s0.drop q4) ≤ s0.length - q4 := by
      have := countWhile_le (fun c => !(c == '\n')) (s0.drop q4)
      simpa [lineRun] using this
    have hr1 := hcond.1
    cases h
    constructor
    · omega
    · omega
  · rw [if_neg hcond] at h
    exact absurd h (by simp)

theorem findSome?_mem {l : List α} {f : α → Option β} {b : β}
    (h : l.findSome? f = some b) : ∃ a ∈ l, f a = some b := by
  induction l with
  | nil => exact absurd h (by simp)
  | cons x xs ih =>
      rw [List.findSome?_cons] at h
      cases hx : f x with
      | some y =>
          rw [hx] at h
          exact ⟨x, by simp, hx.trans h⟩
      | none =>
          rw [hx] at h
          obtain ⟨a, ha, hfa⟩ := ih h
          exact ⟨a, by simp [ha], hfa⟩

theorem matchArticleAt_bounds {s0 : List Char} {e : Nat} {nm ti : List Char}
    (h : matchArticleAt s0 = some (e, nm, ti)) : 1 ≤ e ∧ e ≤ s0.length := by
  unfold matchArticleAt at h
  obtain ⟨q, _, hq⟩ := findSome?_mem h
  by_cases hd : digRun (s0.drop q) = 0
  · rw [if_pos hd] at hq
    exact absurd hq (by simp)
  · rw [if_neg hd] at hq
    obtain ⟨q4, _, hq4⟩ := findSome?_mem hq
    cases hte : titleAt s0 q4 with
    | none => rw [hte] at hq4; exact absurd hq4 (by simp)
    | some te =>
        rw [hte] at hq4
        have hb := titleAt_bounds hte
        injection hq4 with hq5
        injection hq5 with he1 hrest
        rw [← he1]
        exact hb

theorem colonTitle_bounds {s0 : List Char} {e3 : Nat} {cap : List Char}
    {e : Nat} {nm ti : List Char}
    (h : colonTitle s0 e3 cap = some (e, nm, ti)) : 1 ≤ e ∧ e ≤ s0.length := by
  unfold colonTitle at h
  split at h
  · split at h
    · obtain ⟨q4, _, hq4⟩ := findSome?_mem h
      cases hte : titleAt s0 q4 with
      | none => rw [hte] at hq4; exact absurd hq4 (by simp)
      | some te =>
          rw [hte] at hq4
          have hb := titleAt_bounds hte
          injection hq4 with hq5
          injection hq5 with he1 hrest
          rw [← he1]
          exact hb
    · exact absurd h (by simp)
  · exact absurd h (by simp)

theorem matchSectionAt_bounds {s0 : List Char} {e : Nat} {nm ti : List Char}
    (h : matchSectionAt s0 = some (e, nm, ti)) : 1 ≤ e ∧ e ≤ s0.length := by
  unfold matchSectionAt at h
  obtain ⟨lit, _, hlit⟩ := findSome?_mem h
  dsimp only at hlit
  by_cases hw : wsRun (s0.drop (wsRun s0 + lit.length)) = 0
  · rw [if_pos hw] at hlit
    exact absurd hlit (by simp)
  · rw [if_neg hw] at hlit
    by_cases hd : digRun (s0.drop (wsRun s0 + lit.length +
        wsRun (s0.drop (wsRun s0 + lit.length)))) = 0
    · rw [if_pos hd] at hlit
      exact absurd hlit (by simp)
    · rw [if_neg hd] at hlit
      exact colonTitle_bounds hlit

/-- Matches produced by the scan are in increasing position order,
non-overlapping, with positive width, inside the text. -/
theorem finditerAux_spans (m : List Char → Option (Nat × List Char × List Char))
    (hm : ∀ s e nm ti, m s = some (e, nm, ti) → 1 ≤ e ∧ e ≤ s.length) :
    ∀ (fuel p : Nat) (ls : Bool) (s : List Char),
    (∀ r ∈ finditerAux m fuel p ls s,
      p ≤ r.mstart ∧ r.mstart < r.mstop ∧ r.mstop ≤ p + s.length) ∧
    List.Chain' (fun a b => a.mstop ≤ b.mstart) (finditerAux m fuel p ls s) := by
  intro fuel
  induction fuel with
  | zero => intro p ls s; constructor
            · intro r hr
              simp [finditerAux] at hr
            · simp [finditerAux]
  | succ fuel ih =>
      intro p ls s
      cases s with
      | nil =>
          constructor
          · intro r hr
            simp [finditerAux] at hr
          · simp [finditerAux]
      | cons c rest =>
          show (∀ r ∈ finditerAux m (fuel + 1) p ls (c :: rest), _) ∧ _
          by_cases hls : ls = true
          · subst hls
            unfold finditerAux
            dsimp only
            rw [if_pos rfl]
            cases hmatch : m (c :: rest) with
            | none =>
                obtain ⟨ihb, ihc⟩ := ih (p + 1) (headIsNl (c :: rest)) rest
                constructor
                · intro r hr
                  obtain ⟨h1, h2, h3⟩ := ihb r hr
                  refine ⟨by omega, h2, ?_⟩
                  simp only [List.length_cons]
                  omega
                · exact ihc
            | some res =>
                obtain ⟨e, nm, ti⟩ := res
                dsimp only
                have he := hm _ _ _ _ hmatch
                have hadv : max 1 e = e := by omega
                rw [hadv]
                obtain ⟨ihb, ihc⟩ := ih (p + e)
                  (((c :: rest).drop (e - 1)).headD ' ' == '\n') ((c :: rest).drop e)
                constructor
                · intro r hr
                  rcases List.mem_cons.mp hr with rfl | hr2
                  · refine ⟨le_refl _, by simp; omega, ?_⟩
                    simp only [List.length_cons] at he ⊢
                    omega
                  · obtain ⟨h1, h2, h3⟩ := ihb r hr2
                    have hdl : ((c :: rest).drop e).length = (c :: rest).length - e := by
                      simp only [List.length_drop]
                    refine ⟨by omega, h2, ?_⟩
                    rw [hdl] at h3
                    simp only [List.length_cons] at he h3 ⊢
                    omega
                · rw [List.chain'_cons']
                  refine ⟨?_, ihc⟩
                  intro y hy
                  have hymem : y ∈ finditerAux m fuel (p + e)
                      (((c :: rest).drop (e - 1)).headD ' ' == '\n')
                      ((c :: rest).drop e) := by
                    exact List.mem_of_mem_head? hy
                  obtain ⟨h1, _, _⟩ := ihb y hymem
                  show p + e ≤ y.mstart
                  omega
          · have hls2 : ls = false := by
              cases ls
              · rfl
              · exact absurd rfl hls
            subst hls2
            unfold finditerAux
            dsimp only
            rw [if_neg (by simp)]
            obtain ⟨ihb, ihc⟩ := ih (p + 1) (headIsNl (c :: rest)) rest
            constructor
            · intro r hr
              obtain ⟨h1, h2, h3⟩ := ihb r hr
              refine ⟨by omega, h2, ?_⟩
              simp only [List.length_cons]
              omega
            · exact ihc

/-! ## C3: spans of the produced segments, assembled per strategy -/

/-- The right end of a segment body: the start of the next match, or
the text length for the last match. -/
def nextStop (n : Nat) : List RMatch → Nat
  | m2 :: _ => m2.mstart
  | [] => n

theorem articleSegsAux_cons (t : List Char) (n : Nat) (m : RMatch) (rest : List RMatch) :
    articleSegsAux t n (m :: rest) =
      (if (pyStrip (sliceList t m.mstop (nextStop n rest))).isEmpty then []
       else [{ article_id := pyStrip m.num, title := pyStrip m.title,
               text := pyStrip (sliceList t m.mstop (nextStop n rest)),
               start := m.mstop, stop := nextStop n rest }]) ++
      articleSegsAux t n rest := by
  cases rest with
  | nil => rfl
  | cons m2 r2 => rfl

theorem sectionSegsAux_cons (t : List Char) (n : Nat) (m : RMatch) (rest : List RMatch) :
    sectionSegsAux t n (m :: rest) =
      sectionParasAux (pyStrip m.num) (pyStrip m.title) m.mstop (nextStop n rest) 0
        (((splitBlank (pyStrip (sliceList t m.mstop (nextStop n rest)))).map pyStrip).filter
          (fun p => !p.isEmpty)) ++
      sectionSegsAux t n rest := by
  cases rest with
  | nil => rfl
  | cons m2 r2 => rfl

theorem sectionParasAux_spans (secId secTitle : List Char) (a b : Nat) :
    ∀ (ps : List (List Char)) (j : Nat),
    ∀ seg ∈ sectionParasAux secId secTitle a b j ps, seg.start = a ∧ seg.stop = b := by
  intro ps
  induction ps with
  | nil => intro j seg hseg; simp [sectionParasAux] at hseg
  | cons p rest ih =>
      intro j seg hseg
      unfold sectionParasAux at hseg
      rcases List.mem_cons.mp hseg with rfl | h2
      · exact ⟨rfl, rfl⟩
      · exact ih (j + 1) seg h2

theorem chain_start_of_all {l : List Segment} {a : Nat}
    (h : ∀ x ∈ l, x.start = a) :
    List.Chain' (fun x y : Segment => x.start ≤ y.start) l := by
  induction l with
  | nil => constructor
  | cons x xs ih =>
      rw [List.chain'_cons']
      refine ⟨?_, ih (fun y hy => h y (List.mem_cons_of_mem _ hy))⟩
      intro y hy
      have hyx := h y (List.mem_cons_of_mem _ (List.mem_of_mem_head? hy))
      have hx := h x (List.mem_cons_self _ _)
      omega

theorem mem_of_getLast2 {α : Type} : ∀ (l : List α) (a : α), l.getLast? = some a → a ∈ l := by
  intro l
  induction l with
  | nil => intro a h; exact absurd h (by simp)
  | cons x xs ih =>
      intro a h
      cases xs with
      | nil =>
          simp at h
          simp [h]
      | cons y ys =>
          rw [List.getLast?_cons_cons] at h
          exact List.mem_cons_of_mem _ (ih a h)

theorem articleSegsAux_spans (t : List Char) (n : Nat) :
    ∀ ms : List RMatch,
    (∀ r ∈ ms, r.mstart < r.mstop ∧ r.mstop ≤ n) →
    List.Chain' (fun a b : RMatch => a.mstop ≤ b.mstart) ms →
    (∀ seg ∈ articleSegsAux t n ms, seg.start ≤ seg.stop ∧ seg.stop ≤ n ∧
      ∀ m0, ms.head? = some m0 → m0.mstop ≤ seg.start) ∧
    List.Chain' (fun a b : Segment => a.start ≤ b.start) (articleSegsAux t n ms) := by
  intro ms
  induction ms with
  | nil =>
      intro _ _
      exact ⟨fun seg hseg => absurd hseg (by simp [articleSegsAux]),
        by simp [articleSegsAux]⟩
  | cons m rest ih =>
      intro hb hc
      have hbm := hb m (List.mem_cons_self _ _)
      have hbrest : ∀ r ∈ rest, r.mstart < r.mstop ∧ r.mstop ≤ n :=
        fun r hr => hb r (List.mem_cons_of_mem _ hr)
      obtain ⟨ihb, ihc⟩ := ih hbrest hc.tail
      have hme : m.mstop ≤ nextStop n rest ∧ nextStop n rest ≤ n := by
        cases rest with
        | nil => exact ⟨hbm.2, le_refl n⟩
        | cons m2 r2 =>
            have h12 := (List.chain'_cons.mp hc).1
            have hbm2 := hbrest m2 (List.mem_cons_self _ _)
            exact ⟨h12, by show m2.mstart ≤ n; omega⟩
      have htail : ∀ seg ∈ articleSegsAux t n rest, m.mstop ≤ seg.start := by
        intro seg hseg
        cases rest with
        | nil => exact absurd hseg (by simp [articleSegsAux])
        | cons m2 r2 =>
            have h3 := (ihb seg hseg).2.2 m2 rfl
            have h12 := (List.chain'_cons.mp hc).1
            have hbm2 := hbrest m2 (List.mem_cons_self _ _)
            omega
      rw [articleSegsAux_cons]
      constructor
      · intro seg hseg
        rcases List.mem_append.mp hseg with h1 | h2
        · by_cases hcnd : (pyStrip (sliceList t m.mstop (nextStop n rest))).isEmpty = true
          · rw [if_pos hcnd] at h1
            exact absurd h1 (by simp)
          · rw [if_neg hcnd] at h1
            have hseg2 := List.mem_singleton.mp h1
            subst hseg2
            refine ⟨hme.1, hme.2, ?_⟩
            intro m0 hm0
            injection hm0 with hm0
            subst hm0
            exact le_refl _
        · have h23 := ihb seg h2
          refine ⟨h23.1, h23.2.1, ?_⟩
          intro m0 hm0
          injection hm0 with hm0
          subst hm0
          exact htail seg h2
      · by_cases hcnd : (pyStrip (sliceList t m.mstop (nextStop n rest))).isEmpty = true
        · rw [if_pos hcnd, List.nil_append]
          exact ihc
        · rw [if_neg hcnd, List.singleton_append]
          rw [List.chain'_cons']
          refine ⟨?_, ihc⟩
          intro y hy
          have hym := htail y (List.mem_of_mem_head? hy)
          show m.mstop ≤ y.start
          omega

theorem sectionSegsAux_spans (t : List Char) (n : Nat) :
    ∀ ms : List RMatch,
    (∀ r ∈ ms, r.mstart < r.mstop ∧ r.mstop ≤ n) →
    List.Chain' (fun a b : RMatch => a.mstop ≤ b.mstart) ms →
    (∀ seg ∈ sectionSegsAux t n ms, seg.start ≤ seg.stop ∧ seg.stop ≤ n ∧
      ∀ m0, ms.head? = some m0 → m0.mstop ≤ seg.start) ∧
    List.Chain' (fun a b : Segment => a.start ≤ b.start) (sectionSegsAux t n ms) := by
  intro ms
  induction ms with
  | nil =>
      intro _ _
      exact ⟨fun seg hseg => absurd hseg (by simp [sectionSegsAux]),
        by simp [sectionSegsAux]⟩
  | cons m rest ih =>
      intro hb hc
      have hbm := hb m (List.mem_cons_self _ _)
      have hbrest : ∀ r ∈ rest, r.mstart < r.mstop ∧ r.mstop ≤ n :=
        fun r hr => hb r (List.mem_cons_of_mem _ hr)
      obtain ⟨ihb, ihc⟩ := ih hbrest hc.tail
      have hme : m.mstop ≤ nextStop n rest ∧ nextStop n rest ≤ n := by
        cases rest with
        | nil => exact ⟨hbm.2, le_refl n⟩
        | cons m2 r2 =>
            have h12 := (List.chain'_cons.mp hc).1
            have hbm2 := hbrest m2 (List.mem_cons_self _ _)
            exact ⟨h12, by show m2.mstart ≤ n; omega⟩
      have htail : ∀ seg ∈ sectionSegsAux t n rest, m.mstop ≤ seg.start := by
        intro seg hseg
        cases rest with
        | nil => exact absurd hseg (by simp [sectionSegsAux])
        | cons m2 r2 =>
            have h3 := (ihb seg hseg).2.2 m2 rfl
            have h12 := (List.chain'_cons.mp hc).1
            have hbm2 := hbrest m2 (List.mem_cons_self _ _)
            omega
      have hgrp := sectionParasAux_spans (pyStrip m.num) (pyStrip m.title) m.mstop
        (nextStop n rest)
        (((splitBlank (pyStrip (sliceList t m.mstop (nextStop n rest)))).map pyStrip).filter
          (fun p => !p.isEmpty)) 0
      rw [sectionSegsAux_cons]
      constructor
      · intro seg hseg
        rcases List.mem_append.mp hseg with h1 | h2
        · obtain ⟨hstart, hstop⟩ := hgrp seg h1
          refine ⟨?_, ?_, ?_⟩
          · rw [hstart, hstop]
            exact hme.1
          · rw [hstop]
            exact hme.2
          · intro m0 hm0
            injection hm0 with hm0
            subst hm0
            rw [hstart]
        · have h23 := ihb seg h2
          refine ⟨h23.1, h23.2.1, ?_⟩
          intro m0 hm0
          injection hm0 with hm0
          subst hm0
          exact htail seg h2
      · apply List.Chain'.append
        · exact chain_start_of_all (fun x hx => (hgrp x hx).1)
        · exact ihc
        · intro x hx y hy
          have hxm := mem_of_getLast2 _ _ hx
          have hym := List.mem_of_mem_head? hy
          have h1 := (hgrp x hxm).1
          have h2 := htail y hym
          show x.start ≤ y.start
          omega

theorem finditerArticle_spans (t : List Char) :
    (∀ r ∈ finditerArticle t, r.mstart < r.mstop ∧ r.mstop ≤ t.length) ∧
    List.Chain' (fun a b : RMatch => a.mstop ≤ b.mstart) (finditerArticle t) := by
  have h := finditerAux_spans matchArticleAt
    (fun s e nm ti hm => matchArticleAt_bounds hm) (t.length + 1) 0 true t
  refine ⟨?_, h.2⟩
  intro r hr
  obtain ⟨h1, h2, h3⟩ := h.1 r hr
  exact ⟨h2, by omega⟩

theorem finditerSection_spans (t : List Char) :
    (∀ r ∈ finditerSection t, r.mstart < r.mstop ∧ r.mstop ≤ t.length) ∧
    List.Chain' (fun a b : RMatch => a.mstop ≤ b.mstart) (finditerSection t) := by
  have h := finditerAux_spans matchSectionAt
    (fun s e nm ti hm => matchSectionAt_bounds hm) (t.length + 1) 0 true t
  refine ⟨?_, h.2⟩
  intro r hr
  obtain ⟨h1, h2, h3⟩ := h.1 r hr
  exact ⟨h2, by omega⟩

theorem articleSegs_spans (t : List Char) :
    (∀ seg ∈ articleSegs t, seg.start ≤ seg.stop ∧ seg.stop ≤ t.length) ∧
    List.Chain' (fun a b : Segment => a.start ≤ b.start) (articleSegs t) := by
  have hf := finditerArticle_spans t
  have h := articleSegsAux_spans t t.length (finditerArticle t) hf.1 hf.2
  exact ⟨fun seg hseg => ⟨(h.1 seg hseg).1, (h.1 seg hseg).2.1⟩, h.2⟩

theorem sectionSegs_spans (t : List Char) :
    (∀ seg ∈ sectionSegs t, seg.start ≤ seg.stop ∧ seg.stop ≤ t.length) ∧
    List.Chain' (fun a b : Segment => a.start ≤ b.start) (sectionSegs t) := by
  have hf := finditerSection_spans t
  have h := sectionSegsAux_spans t t.length (finditerSection t) hf.1 hf.2
  exact ⟨fun seg hseg => ⟨(h.1 seg hseg).1, (h.1 seg hseg).2.1⟩, h.2⟩

theorem fixedWindowsAux_spans (t : List Char) (n : Nat) :
    ∀ (fuel s k : Nat),
    (∀ seg ∈ fixedWindowsAux t n fuel s k,
      s ≤ seg.start ∧ seg.start ≤ seg.stop ∧ seg.stop ≤ n) ∧
    List.Chain' (fun a b : Segment => a.start ≤ b.start) (fixedWindowsAux t n fuel s k) := by
  intro fuel
  induction fuel with
  | zero =>
      intro s k
      exact ⟨fun seg hseg => absurd hseg (by simp [fixedWindowsAux]),
        by simp [fixedWindowsAux]⟩
  | succ fuel ih =>
      intro s k
      unfold fixedWindowsAux
      by_cases hs : s < n
      · rw [if_pos hs]
        dsimp only
        by_cases hc : (pyStrip (sliceList t s (min n (s + 2000)))).isEmpty = true
        · rw [if_pos hc, if_pos hc]
          by_cases he : n ≤ min n (s + 2000)
          · rw [if_pos he]
            exact ⟨fun seg hseg => absurd hseg (by simp), by simp⟩
          · rw [if_neg he, List.nil_append]
            obtain ⟨ihb, ihc⟩ := ih (min n (s + 2000) - 200) k
            refine ⟨?_, ihc⟩
            intro seg hseg
            obtain ⟨h1, h2, h3⟩ := ihb seg hseg
            exact ⟨by omega, h2, h3⟩
        · rw [if_neg hc, if_neg hc]
          by_cases he : n ≤ min n (s + 2000)
          · rw [if_pos he]
            refine ⟨?_, List.chain'_singleton _⟩
            intro seg hseg
            have hseg2 := List.mem_singleton.mp hseg
            subst hseg2
            refine ⟨le_refl _, ?_, ?_⟩
            · show s ≤ min n (s + 2000)
              omega
            · show min n (s + 2000) ≤ n
              omega
          · rw [if_neg he, List.singleton_append]
            obtain ⟨ihb, ihc⟩ := ih (min n (s + 2000) - 200) (k + 1)
            constructor
            · intro seg hseg
              rcases List.mem_cons.mp hseg with rfl | h2
              · refine ⟨le_refl _, ?_, ?_⟩
                · show s ≤ min n (s + 2000)
                  omega
                · show min n (s + 2000) ≤ n
                  omega
              · obtain ⟨h1, h2, h3⟩ := ihb seg h2
                exact ⟨by omega, h2, h3⟩
            · rw [List.chain'_cons']
              refine ⟨?_, ihc⟩
              intro y hy
              have hym := (ihb y (List.mem_of_mem_head? hy)).1
              show s ≤ y.start
              omega
      · rw [if_neg hs]
        exact ⟨fun seg hseg => absurd hseg (by simp), by simp⟩

/-- Under the no-blank-window hypothesis the loop emits at least one
segment whenever it still has fuel covering the remaining text. -/
theorem fixedWindowsAux_ne_nil_of_nw (t : List Char) (n : Nat)
    (hnw : ∀ s2, s2 < n → ¬ (pyStrip (sliceList t s2 (min n (s2 + 2000)))).isEmpty = true) :
    ∀ (fuel s k : Nat), s < n → n ≤ s + 1800 * fuel →
    fixedWindowsAux t n fuel s k ≠ [] := by
  intro fuel
  cases fuel with
  | zero => intro s k hs hf; omega
  | succ fuel =>
      intro s k hs hf
      have hc := hnw s hs
      unfold fixedWindowsAux
      rw [if_pos hs]
      dsimp only
      rw [if_neg hc, if_neg hc]
      by_cases he : n ≤ min n (s + 2000)
      · rw [if_pos he]
        simp
      · rw [if_neg he]
        simp

/-- Exact cover by the fixed-window loop: when no window is entirely
whitespace, the first segment starts at the loop start, the last one
stops at the text end, and consecutive windows overlap by exactly 200
characters. -/
theorem fixedWindowsAux_cover (t : List Char) (n : Nat)
    (hnw : ∀ s2, s2 < n → ¬ (pyStrip (sliceList t s2 (min n (s2 + 2000)))).isEmpty = true) :
    ∀ (fuel s k : Nat), s < n → n ≤ s + 1800 * fuel →
    (∀ s0, (fixedWindowsAux t n fuel s k).head? = some s0 → s0.start = s) ∧
    (∀ s1, (fixedWindowsAux t n fuel s k).getLast? = some s1 → s1.stop = n) ∧
    List.Chain' (fun a b : Segment => a.stop = b.start + 200) (fixedWindowsAux t n fuel s k) := by
  intro fuel
  induction fuel with
  | zero => intro s k hs hf; omega
  | succ fuel ih =>
      intro s k hs hf
      have hc := hnw s hs
      unfold fixedWindowsAux
      rw [if_pos hs]
      dsimp only
      rw [if_neg hc, if_neg hc]
      by_cases he : n ≤ min n (s + 2000)
      · rw [if_pos he]
        refine ⟨?_, ?_, List.chain'_singleton _⟩
        · intro s0 h0
          rw [List.head?_cons] at h0
          injection h0 with h0
          subst h0
          rfl
        · intro s1 h1
          rw [List.getLast?_singleton] at h1
          injection h1 with h1
          subst h1
          show min n (s + 2000) = n
          omega
      · rw [if_neg he, List.singleton_append]
        obtain ⟨ih1, ih2, ih3⟩ := ih (min n (s + 2000) - 200) (k + 1) (by omega) (by omega)
        have hne := fixedWindowsAux_ne_nil_of_nw t n hnw fuel (min n (s + 2000) - 200) (k + 1)
          (by omega) (by omega)
        refine ⟨?_, ?_, ?_⟩
        · intro s0 h0
          rw [List.head?_cons] at h0
          injection h0 with h0
          subst h0
          rfl
        · intro s1 h1
          cases hq : fixedWindowsAux t n fuel (min n (s + 2000) - 200) (k + 1) with
          | nil => exact absurd hq hne
          | cons b l =>
              rw [hq, List.getLast?_cons_cons] at h1
              apply ih2
              rw [hq]
              exact h1
        · rw [List.chain'_cons']
          refine ⟨?_, ih3⟩
          intro y hy
          have hys : y.start = min n (s + 2000) - 200 := ih1 y hy
          show min n (s + 2000) = y.start + 200
          omega

/-- Boolean chain check over consecutive segments. -/
def segChainB (r : Segment → Segment → Bool) : List Segment → Bool
  | a :: b :: rest => r a b && segChainB r (b :: rest)
  | _ => true

/-- Formalisation of the C3 sentence, with the declared window overlap
200 (the `overlap` argument of `_fixed_windows`): spans are ordered;
consecutive spans overlap by at most 200; consecutive spans leave no
gap larger than 200; and the covered region reaches the two ends of the
text up to 200 characters. -/
def c3Claim (t : List Char) : Bool :=
  segChainB (fun a b => decide (a.start ≤ b.start)) (segment t) &&
  segChainB (fun a b => decide (a.stop ≤ b.start + 200)) (segment t) &&
  segChainB (fun a b => decide (b.start ≤ a.stop + 200)) (segment t) &&
  (match (segment t).head? with
   | some s0 => decide (s0.start ≤ 200)
   | none => true) &&
  (match (segment t).getLast? with
   | some s1 => decide (t.length ≤ s1.stop + 200)
   | none => true)

/-- A section heading followed by a long body with one blank line: the
section-fallback strategy splits the body into two paragraphs but gives
both the span of the whole body. -/
def c3Text : List Char :=
  ("Section 1: T\n".data ++ List.replicate 150 'a') ++
    ('\n' :: '\n' :: List.replicate 150 'b')

set_option maxRecDepth 100000 in
/-- C3 counterexample: on this non-empty 315-character input, `segment`
returns two segments both spanning (12, 315): the spans coincide, so
consecutive segments overlap by 303 > 200 characters, violating the
claimed overlap bound. -/
theorem c3_counterexample :
    c3Text ≠ [] ∧
    (segment c3Text).map (fun seg => (seg.start, seg.stop)) = [(12, 315), (12, 315)] ∧
    c3Claim c3Text = false := by
  refine ⟨by decide, by decide, by decide⟩

/-- C3 amended: for every input, the spans of the returned segments lie
inside the text and are ordered by start position (true for all three
strategies).  The full no-gap, bounded-overlap cover holds on the
fixed-window path: when both heading strategies yield nothing and every
window contains a non-whitespace character, the first segment starts at
0, the last stops at the text length, and consecutive segments overlap
by exactly the declared 200 characters. -/
theorem c3_amended (t : List Char) :
    ((∀ seg ∈ segment t, seg.start ≤ seg.stop ∧ seg.stop ≤ t.length) ∧
      List.Chain' (fun a b : Segment => a.start ≤ b.start) (segment t)) ∧
    (articleSegs t = [] → sectionSegs t = [] →
      (∀ s2, s2 < t.length →
        ¬ (pyStrip (sliceList t s2 (min t.length (s2 + 2000)))).isEmpty = true) →
      (∀ s0, (segment t).head? = some s0 → s0.start = 0) ∧
      (∀ s1, (segment t).getLast? = some s1 → s1.stop = t.length) ∧
      List.Chain' (fun a b : Segment => a.stop = b.start + 200) (segment t)) := by
  constructor
  · rcases segment_cases t with ⟨hempty, _⟩ | ⟨_, heq⟩ | ⟨_, _, heq⟩ | ⟨_, _, heq⟩
    · rw [hempty]
      exact ⟨fun seg hseg => absurd hseg (by simp), by simp⟩
    · rw [heq]
      exact articleSegs_spans t
    · rw [heq]
      exact sectionSegs_spans t
    · rw [heq]
      unfold _fixed_windows
      have h := fixedWindowsAux_spans t t.length (t.length + 1) 0 1
      exact ⟨fun seg hseg => ⟨(h.1 seg hseg).2.1, (h.1 seg hseg).2.2⟩, h.2⟩
  · intro ha hsec hnw
    rcases segment_cases t with ⟨hempty, _⟩ | ⟨hne, _⟩ | ⟨_, hne, _⟩ | ⟨_, _, heq⟩
    · rw [hempty]
      exact ⟨fun s0 h0 => absurd h0 (by simp), fun s1 h1 => absurd h1 (by simp), by simp⟩
    · exact absurd ha hne
    · exact absurd hsec hne
    · rw [heq]
      unfold _fixed_windows
      by_cases hlen : 0 < t.length
      · exact fixedWindowsAux_cover t t.length hnw (t.length + 1) 0 1 hlen (by omega)
      · have hnil : fixedWindowsAux t t.length (t.length + 1) 0 1 = [] := by
          unfold fixedWindowsAux
          rw [if_neg (by omega)]
        rw [hnil]
        exact ⟨fun s0 h0 => absurd h0 (by simp), fun s1 h1 => absurd h1 (by simp), by simp⟩

theorem c3_amended_witness :
    ((∀ seg ∈ segment ("ab".data), seg.start ≤ seg.stop ∧ seg.stop ≤ ("ab".data).length) ∧
      List.Chain' (fun a b : Segment => a.start ≤ b.start) (segment ("ab".data))) ∧
    ((∀ s0, (segment ("ab".data)).head? = some s0 → s0.start = 0) ∧
      (∀ s1, (segment ("ab".data)).getLast? = some s1 → s1.stop = ("ab".data).length) ∧
      List.Chain' (fun a b : Segment => a.stop = b.start + 200) (segment ("ab".data))) :=
  ⟨(c3_amended ("ab".data)).1,
    (c3_amended ("ab".data)).2 (by decide) (by decide) (by decide)⟩

/-! ## C6: the zero-shot domain classifier -/

/-- Embedding of `DOMAIN_LABELS` (src/src/app/model_rulepack.py lines
47-76), in dict insertion order. -/
def DOMAIN_LABELS : List (List Char × List (List Char)) :=
  [("aml_kyc".data,
     ["AML and KYC obligations".data,
      "anti-money laundering".data,
      "customer due diligence".data,
      "transaction monitoring".data,
      "suspicious activity reporting".data]),
   ("data_residency".data,
     ["data protection and residency".data,
      "personal data storage location".data,
      "privacy and consent".data,
      "data localization".data,
      "PII residency".data]),
   ("governance".data,
     ["corporate governance and audit".data,
      "internal audit".data,
      "compliance officer role".data,
      "board oversight".data,
      "fit and proper requirements".data]),
   ("licensing_capital".data,
     ["licensing and minimum capital".data,
      "licensing categories".data,
      "paid-up capital".data,
      "application requirements".data,
      "authorization conditions".data])]

/-- `self._label_texts`: the `(domain_id, label_text)` rows in catalog
and phrasing insertion order, as built by
`RulepackGenerator.__init__`. -/
def _label_texts : List (List Char × List Char) :=
  DOMAIN_LABELS.flatMap (fun p => p.2.map (fun lab => (p.1, lab)))

/-- Inner product of two embedding vectors (one entry of
`np.matmul(seg_emb, self._label_emb.T)`). -/
def dotQ (u v : List ℚ) : ℚ := (List.zipWith (fun a b => a * b) u v).sum

def argmaxAux : Nat → Nat → ℚ → List ℚ → Nat
  | _, best, _, [] => best
  | i, best, bestv, x :: xs =>
      if bestv < x then argmaxAux (i + 1) i x xs
      else argmaxAux (i + 1) best bestv xs

/-- `int(np.argmax(row))`.  numpy is external to the repository;
modelled from the spec: ties in argmax resolve to the lowest row index
(the documented first-occurrence semantics of `np.argmax`). -/
def argmaxIdx : List ℚ → Nat
  | [] => 0
  | x :: xs => argmaxAux 1 0 x xs

/-- `self._label_emb` paired with its domain ids: the label embedding
rows, one per `_label_texts` entry. -/
def labelRows (enc : List Char → List ℚ) : List (List Char × List ℚ) :=
  _label_texts.map (fun p => (p.1, enc p.2))

/-- The classification threshold `0.35` of `classify_domain`, as the
reduced rational 7/20 (given directly in lowest terms, so that
comparisons against it evaluate by reduction). -/
def threshold : ℚ := ⟨7, 20, by norm_num, by norm_num⟩

/-- Embedding of `RulepackGenerator.classify_domain`
(src/src/app/model_rulepack.py lines 158-179).  The sentence
transformer is external to the repository, so the embedding model is
abstracted as a pure function `enc` from a text to its normalised
embedding vector; modelled from the spec: batch `encode` embeds each
text independently, and `np.matmul(seg_emb, self._label_emb.T)[i][j]`
is the inner product of segment embedding `i` with label embedding `j`.
The early returns for `not segs` and for `not texts` both produce `[]`,
which coincides with the general path on those inputs.
`self._label_texts[j][0]` and `sims[i, j]` use `j = argmax` over the
20-entry similarity row, always in range (`argmaxAux_spec`), embedded
with `getD`. -/
def classify_domain (enc : List Char → List ℚ) (segs : List Segment) :
    List (Segment × Option (List Char) × ℚ) :=
  (segs.filterMap (fun s =>
      let t := pyStrip s.title ++ '\n' :: '\n' :: pyStrip s.text
      if (pyStrip t).isEmpty then none else some (s, t))).map
    (fun p =>
      let sims := (labelRows enc).map (fun lr => dotQ (enc p.2) lr.2)
      let j := argmaxIdx sims
      let dom := (_label_texts.map Prod.fst).getD j []
      let score := sims.getD j 0
      (p.1, if threshold ≤ score then some dom else none, score))

/-- The similarity row of one segment against all 20 label rows. -/
def simsRow (enc : List Char → List ℚ) (s : Segment) : List ℚ :=
  (labelRows enc).map
    (fun lr => dotQ (enc (pyStrip s.title ++ '\n' :: '\n' :: pyStrip s.text)) lr.2)

/-- A stripped string whose characters are all whitespace is empty. -/
theorem strip_all_ws {m : List Char} (h : ∀ c ∈ pyStrip m, isPySpace c = true) :
    pyStrip m = [] := by
  cases hC : (m.dropWhile isPySpace).reverse.dropWhile isPySpace with
  | nil =>
      unfold pyStrip
      rw [hC]
      rfl
  | cons c r2 =>
      exfalso
      have hc := dropWhile_head_false hC
      have hmem : c ∈ pyStrip m := by
        unfold pyStrip
        rw [hC]
        simp
      rw [h c hmem] at hc
      exact Bool.noConfusion hc

/-- The joined `strip(title) + "\n\n" + strip(text)` strips to empty
exactly when both parts strip to empty. -/
theorem keepCond_iff (a b : List Char) :
    pyStrip (pyStrip a ++ '\n' :: '\n' :: pyStrip b) = [] ↔
      pyStrip a = [] ∧ pyStrip b = [] := by
  rw [pyStrip_eq_nil]
  constructor
  · intro h
    constructor
    · apply strip_all_ws
      intro c hc
      exact h c (List.mem_append_left _ hc)
    · apply strip_all_ws
      intro c hc
      exact h c (List.mem_append_right _
        (List.mem_cons_of_mem _ (List.mem_cons_of_mem _ hc)))
  · rintro ⟨h1, h2⟩ c hc
    rw [h1, h2] at hc
    simp only [List.nil_append, List.mem_cons, List.not_mem_nil, or_false] at hc
    rcases hc with rfl | rfl
    · decide
    · decide

theorem keepB_eq (s : Segment) :
    (!(pyStrip (pyStrip s.title ++ '\n' :: '\n' :: pyStrip s.text)).isEmpty) =
      (!(pyStrip s.title).isEmpty || !(pyStrip s.text).isEmpty) := by
  have h := keepCond_iff s.title s.text
  rw [← List.isEmpty_iff, ← List.isEmpty_iff, ← List.isEmpty_iff] at h
  cases hA : (pyStrip s.title).isEmpty <;>
    cases hB : (pyStrip s.text).isEmpty <;>
      cases hC : (pyStrip (pyStrip s.title ++ '\n' :: '\n' :: pyStrip s.text)).isEmpty <;>
        simp_all

/-- `classify_domain` as a filter followed by a map. -/
theorem classify_domain_eq (enc : List Char → List ℚ) (segs : List Segment) :
    classify_domain enc segs =
      (segs.filter (fun s =>
          !(pyStrip (pyStrip s.title ++ '\n' :: '\n' :: pyStrip s.text)).isEmpty)).map
        (fun s =>
          (s, (if threshold ≤ (simsRow enc s).getD (argmaxIdx (simsRow enc s)) 0
               then some ((_label_texts.map Prod.fst).getD (argmaxIdx (simsRow enc s)) [])
               else none),
           (simsRow enc s).getD (argmaxIdx (simsRow enc s)) 0)) := by
  unfold classify_domain
  induction segs with
  | nil => rfl
  | cons s rest ih =>
      rw [List.filterMap_cons]
      by_cases hk :
          (pyStrip (pyStrip s.title ++ '\n' :: '\n' :: pyStrip s.text)).isEmpty = true
      · have hkb : (!(pyStrip (pyStrip s.title ++ '\n' :: '\n' :: pyStrip s.text)).isEmpty) =
            false := by rw [hk]; rfl
        rw [List.filter_cons, hkb, if_neg Bool.false_ne_true]
        dsimp only
        rw [if_pos hk]
        exact ih
      · have hkb : (!(pyStrip (pyStrip s.title ++ '\n' :: '\n' :: pyStrip s.text)).isEmpty) =
            true := by
          cases hq : (pyStrip (pyStrip s.title ++ '\n' :: '\n' :: pyStrip s.text)).isEmpty
          · rfl
          · exact absurd hq hk
        rw [List.filter_cons, hkb, if_pos rfl]
        dsimp only
        rw [if_neg hk, List.map_cons, List.map_cons]
        exact congrArg₂ List.cons rfl ih

/-- Invariant of the first-argmax scan: the result indexes the maximum
of the whole row and every earlier entry is strictly below it. -/
theorem argmaxAux_spec (L : List ℚ) :
    ∀ (xs : List ℚ) (i best : Nat) (bestv : ℚ),
    i + xs.length = L.length →
    (∀ m, m < xs.length → L.getD (i + m) 0 = xs.getD m 0) →
    best < i →
    L.getD best 0 = bestv →
    (∀ m, m < i → L.getD m 0 ≤ bestv) →
    (∀ m, m < best → L.getD m 0 < bestv) →
    argmaxAux i best bestv xs < L.length ∧
    (∀ m, m < L.length → L.getD m 0 ≤ L.getD (argmaxAux i best bestv xs) 0) ∧
    (∀ m, m < argmaxAux i best bestv xs →
      L.getD m 0 < L.getD (argmaxAux i best bestv xs) 0) := by
  intro xs
  induction xs with
  | nil =>
      intro i best bestv hlen hsuf hbi hbv hle hlt
      simp only [List.length_nil] at hlen
      refine ⟨?_, ?_, ?_⟩
      · show best < L.length
        omega
      · intro m hm
        show L.getD m 0 ≤ L.getD best 0
        rw [hbv]
        exact hle m (by omega)
      · intro m hm
        show L.getD m 0 < L.getD best 0
        rw [hbv]
        exact hlt m hm
  | cons x xs2 ih =>
      intro i best bestv hlen hsuf hbi hbv hle hlt
      simp only [List.length_cons] at hlen
      have hx : L.getD i 0 = x := by
        have h0 := hsuf 0 (by simp)
        simpa using h0
      have hsuf2 : ∀ m, m < xs2.length → L.getD (i + 1 + m) 0 = xs2.getD m 0 := by
        intro m hm
        have h1 := hsuf (m + 1) (by simp only [List.length_cons]; omega)
        have harith : i + (m + 1) = i + 1 + m := by omega
        rw [harith] at h1
        simpa using h1
      simp only [argmaxAux]
      split
      next hcmp =>
        refine ih (i + 1) i x (by omega) hsuf2 (by omega) hx ?_ ?_
        · intro m hm
          rcases Nat.lt_succ_iff_lt_or_eq.mp hm with hm2 | rfl
          · exact le_of_lt (lt_of_le_of_lt (hle m hm2) hcmp)
          · rw [hx]
        · intro m hm
          exact lt_of_le_of_lt (hle m hm) hcmp
      next hcmp =>
        refine ih (i + 1) best bestv (by omega) hsuf2 (by omega) hbv ?_ hlt
        intro m hm
        rcases Nat.lt_succ_iff_lt_or_eq.mp hm with hm2 | rfl
        · exact hle m hm2
        · rw [hx]
          exact le_of_not_lt hcmp

theorem argmaxIdx_spec (x : ℚ) (xs : List ℚ) :
    argmaxIdx (x :: xs) < (x :: xs).length ∧
    (∀ m, m < (x :: xs).length →
      (x :: xs).getD m 0 ≤ (x :: xs).getD (argmaxIdx (x :: xs)) 0) ∧
    (∀ m, m < argmaxIdx (x :: xs) →
      (x :: xs).getD m 0 < (x :: xs).getD (argmaxIdx (x :: xs)) 0) := by
  simp only [argmaxIdx]
  refine argmaxAux_spec (x :: xs) xs 1 0 x (by simp only [List.length_cons]; omega) ?_
    (by omega) (by simp) ?_ ?_
  · intro m hm
    have harith : 1 + m = m + 1 := by omega
    rw [harith]
    simp
  · intro m hm
    have hm0 : m = 0 := by omega
    subst hm0
    simp
  · intro m hm
    omega

/-- C6: `classify_domain` emits exactly the segments whose stripped
title or stripped text is non-empty (the rest are dropped), in order;
and for each emitted row the reported score is the maximum similarity
of the segment against all 20 label rows, every row before the chosen
argmax row is strictly below it (ties resolve to the lowest row index,
so the result is determined by the embedding function), and the domain
is the chosen row's domain id when the score is at least 0.35 and null
otherwise, the score being reported in both cases. -/
theorem classify_domain_claims (enc : List Char → List ℚ) (segs : List Segment) :
    ((classify_domain enc segs).map (fun r => r.1) =
      segs.filter (fun s => !(pyStrip s.title).isEmpty || !(pyStrip s.text).isEmpty)) ∧
    (∀ r ∈ classify_domain enc segs,
      (∀ j2, j2 < (simsRow enc r.1).length → (simsRow enc r.1).getD j2 0 ≤ r.2.2) ∧
      (∀ j2, j2 < argmaxIdx (simsRow enc r.1) → (simsRow enc r.1).getD j2 0 < r.2.2) ∧
      (threshold ≤ r.2.2 → r.2.1 =
        some ((_label_texts.map Prod.fst).getD (argmaxIdx (simsRow enc r.1)) [])) ∧
      (r.2.2 < threshold → r.2.1 = none)) := by
  constructor
  · rw [classify_domain_eq, List.map_map]
    have hcomp : ((fun r : Segment × Option (List Char) × ℚ => r.1) ∘
        (fun s : Segment =>
          (s, (if threshold ≤ (simsRow enc s).getD (argmaxIdx (simsRow enc s)) 0
               then some ((_label_texts.map Prod.fst).getD (argmaxIdx (simsRow enc s)) [])
               else none),
           (simsRow enc s).getD (argmaxIdx (simsRow enc s)) 0))) = id := rfl
    rw [hcomp, List.map_id]
    exact List.filter_congr (fun s _ => keepB_eq s)
  · intro r hr
    rw [classify_domain_eq] at hr
    obtain ⟨s, hs, rfl⟩ := List.mem_map.mp hr
    dsimp only
    have hlen : (simsRow enc s).length = 20 := by
      simp only [simsRow, labelRows, List.length_map]
      rfl
    cases hrow : simsRow enc s with
    | nil => rw [hrow] at hlen; exact absurd hlen (by simp)
    | cons x xs =>
        have hspec := argmaxIdx_spec x xs
        refine ⟨?_, ?_, ?_, ?_⟩
        · intro j2 hj2
          exact hspec.2.1 j2 hj2
        · intro j2 hj2
          exact hspec.2.2 j2 hj2
        · intro hth
          rw [if_pos hth]
        · intro hth
          rw [if_neg (not_le.mpr hth)]

def c6seg : Segment :=
  { article_id := "1".data, title := "T".data, text := "body".data, start := 0, stop := 4 }

def c6enc : List Char → List ℚ := fun _ => []

def c6row : Segment × Option (List Char) × ℚ := (c6seg, none, 0)

theorem classify_domain_claims_witness :
    ((classify_domain c6enc [c6seg]).map (fun r => r.1) =
      [c6seg].filter (fun s => !(pyStrip s.title).isEmpty || !(pyStrip s.text).isEmpty)) ∧
    ((∀ j2, j2 < (simsRow c6enc c6row.1).length →
        (simsRow c6enc c6row.1).getD j2 0 ≤ c6row.2.2) ∧
     (∀ j2, j2 < argmaxIdx (simsRow c6enc c6row.1) →
        (simsRow c6enc c6row.1).getD j2 0 < c6row.2.2) ∧
     (threshold ≤ c6row.2.2 → c6row.2.1 =
        some ((_label_texts.map Prod.fst).getD (argmaxIdx (simsRow c6enc c6row.1)) [])) ∧
     (c6row.2.2 < threshold → c6row.2.1 = none)) :=
  ⟨(classify_domain_claims c6enc [c6seg]).1,
   (classify_domain_claims c6enc [c6seg]).2 c6row (by decide)⟩

/-! ## C2: the regulator searcher -/

/-- One output row of `RegulatorSearcher.search`.  `domain` holds
`art.get("domain")` (key absent and stored null coincide, hence the
join); `text` is `art.get("text")[:4000]`. -/
structure Hit where
  rank : Nat
  score : ℚ
  article_id : Option String
  title : Option String
  domain : Option String
  confidence : Option Int
  text : String

/-- Order of `index.search` result rows: score descending, ties by row
index ascending. -/
def hitLE (a b : ℚ × Nat) : Prop := b.1 < a.1 ∨ (a.1 = b.1 ∧ a.2 ≤ b.2)

instance : DecidableRel hitLE := fun a b => by unfold hitLE; infer_instance

instance : IsTotal (ℚ × Nat) hitLE where
  total a b := by
    unfold hitLE
    rcases lt_trichotomy a.1 b.1 with h | h | h
    · right
      left
      exact h
    · rcases Nat.le_total a.2 b.2 with h2 | h2
      · left
        right
        exact ⟨h, h2⟩
      · right
        right
        exact ⟨h.symm, h2⟩
    · left
      left
      exact h

instance : IsTrans (ℚ × Nat) hitLE where
  trans a b c h1 h2 := by
    unfold hitLE at h1 h2 ⊢
    rcases h1 with h1 | ⟨h1a, h1b⟩
    · rcases h2 with h2 | ⟨h2a, h2b⟩
      · left
        exact lt_trans h2 h1
      · left
        rw [← h2a]
        exact h1
    · rcases h2 with h2 | ⟨h2a, h2b⟩
      · left
        rw [h1a]
        exact h2
      · right
        exact ⟨h1a.trans h2a, le_trans h1b h2b⟩

/-- `scores, idx = self.index.search(q, k)`, as the list of
`(score, row)` pairs in result order.  faiss is external to the
repository; modelled from the spec: the flat inner-product index
returns the top `min(k, index_size)` rows by exact inner product with
the query, descending score (ties by row index). -/
def indexSearch (index : List (List ℚ)) (q : List ℚ) (k : Nat) : List (ℚ × Nat) :=
  (List.insertionSort hitLE (index.enum.map (fun p => (dotQ q p.2, p.1)))).take
    (min k index.length)

/-- State of `RegulatorSearcher` (src/models/retriever/search.py lines
14-20).  The constructor reads external files: `mapping` is the parsed
`mapping.json` (the article list stored by `build_index.py`, in
order) and `index` the vectors of the faiss flat index.  `model` is an
identity token for the loaded `SentenceTransformer` object (one fresh
token per load); its encoding behaviour is abstracted by an `enc`
function passed to `search`.  `regulator_ns` models the instance
attribute of that name, which `__init__` never sets (`none` =
attribute absent, reading it raises `AttributeError`). -/
structure RegulatorSearcher where
  ns : List Char
  mapping : List Article
  index : List (List ℚ)
  model : Nat
  regulator_ns : Option (List Char)

/-- One row of the output loop of `search`.  `none` models the
exceptions of the row: `IndexError` when the faiss row has no mapping
entry, and `TypeError` from `art.get("text")[:4000]` when the article
has no text. -/
def mkHit (mapping : List Article) (rank : Nat) (p : ℚ × Nat) : Option Hit :=
  match mapping[p.2]? with
  | none => none
  | some art =>
      match art.text with
      | none => none
      | some tx =>
          some { rank := rank, score := p.1, article_id := art.article_id,
                 title := art.title, domain := art.domain.join,
                 confidence := art.confidence, text := String.mk (tx.data.take 4000) }

def hitsLoop (mapping : List Article) : Nat → List (ℚ × Nat) → Option (List Hit)
  | _, [] => some []
  | rank, p :: rest =>
      match mkHit mapping rank p with
      | none => none
      | some h => (hitsLoop mapping (rank + 1) rest).map (fun hs => h :: hs)

/-- Embedding of `RegulatorSearcher.search`
(src/models/retriever/search.py lines 22-37): encode the query, run the
index lookup, and build the ranked hit rows (`enumerate(..., start=1)`). -/
def search (enc : List Char → List ℚ) (s : RegulatorSearcher) (text : List Char)
    (k : Nat) : Option (List Hit) :=
  hitsLoop s.mapping 1 (indexSearch s.index (enc text) k)

theorem indexSearch_length (index : List (List ℚ)) (q : List ℚ) (k : Nat) :
    (indexSearch index q k).length = min k index.length := by
  unfold indexSearch
  rw [List.length_take]
  have h1 : (List.insertionSort hitLE
      (index.enum.map (fun p => (dotQ q p.2, p.1)))).length = index.length := by
    rw [(List.perm_insertionSort hitLE _).length_eq]
    simp
  rw [h1]
  omega

theorem indexSearch_idx_lt (index : List (List ℚ)) (q : List ℚ) (k : Nat) :
    ∀ p ∈ indexSearch index q k, p.2 < index.length := by
  intro p hp
  have hp2 := List.mem_of_mem_take hp
  have hp3 := (List.perm_insertionSort hitLE
    (index.enum.map (fun p => (dotQ q p.2, p.1)))).mem_iff.mp hp2
  obtain ⟨ia, hmem, heq⟩ := List.mem_map.mp hp3
  obtain ⟨h1, h2, h3⟩ := List.mem_enumFrom hmem
  rw [← heq]
  show ia.1 < index.length
  omega

theorem indexSearch_sorted (index : List (List ℚ)) (q : List ℚ) (k : Nat) :
    List.Pairwise hitLE (indexSearch index q k) :=
  List.Pairwise.sublist (List.take_sublist _ _)
    (List.sorted_insertionSort hitLE _)

theorem hitsLoop_spec (mapping : List Article)
    (hok : ∀ a ∈ mapping, a.text ≠ none) :
    ∀ (ps : List (ℚ × Nat)) (r : Nat), (∀ p ∈ ps, p.2 < mapping.length) →
    ∃ hs, hitsLoop mapping r ps = some hs ∧ hs.length = ps.length ∧
      (∀ i, i < hs.length → ∃ h2, hs[i]? = some h2 ∧ h2.rank = r + i) ∧
      hs.map (fun h2 => h2.score) = ps.map Prod.fst := by
  intro ps
  induction ps with
  | nil =>
      intro r _
      exact ⟨[], rfl, rfl, fun i hi => absurd hi (by simp), rfl⟩
  | cons p rest ih =>
      intro r hlt
      have hp := hlt p (List.mem_cons_self _ _)
      have hart : mapping[p.2]? = some mapping[p.2] := List.getElem?_eq_getElem hp
      have hamem : mapping[p.2] ∈ mapping := List.getElem_mem hp
      have htext := hok _ hamem
      cases htx : (mapping[p.2]).text with
      | none => exact absurd htx htext
      | some tx =>
          obtain ⟨hs, hhs, hlen, hranks, hscores⟩ :=
            ih (r + 1) (fun p2 hp2 => hlt p2 (List.mem_cons_of_mem _ hp2))
          have hmk : mkHit mapping r p =
              some { rank := r, score := p.1, article_id := (mapping[p.2]).article_id,
                     title := (mapping[p.2]).title, domain := (mapping[p.2]).domain.join,
                     confidence := (mapping[p.2]).confidence,
                     text := String.mk (tx.data.take 4000) } := by
            unfold mkHit
            rw [hart]
            dsimp only
            rw [htx]
          refine ⟨{ rank := r, score := p.1, article_id := (mapping[p.2]).article_id,
                    title := (mapping[p.2]).title,
                    domain := (mapping[p.2]).domain.join,
                    confidence := (mapping[p.2]).confidence,
                    text := String.mk (tx.data.take 4000) } :: hs, ?_, ?_, ?_, ?_⟩
          · unfold hitsLoop
            rw [hmk]
            dsimp only
            rw [hhs]
            rfl
          · simp only [List.length_cons, hlen]
          · intro i hi
            cases i with
            | zero =>
                refine ⟨{ rank := r, score := p.1,
                          article_id := (mapping[p.2]).article_id,
                          title := (mapping[p.2]).title,
                          domain := (mapping[p.2]).domain.join,
                          confidence := (mapping[p.2]).confidence,
                          text := String.mk (tx.data.take 4000) }, by simp, ?_⟩
                show r = r + 0
                omega
            | succ i2 =>
                have hi2 : i2 < hs.length := by
                  simp only [List.length_cons] at hi
                  omega
                obtain ⟨h2, hh2, hr2⟩ := hranks i2 hi2
                refine ⟨h2, by simpa using hh2, by omega⟩
          · simp only [List.map_cons, hscores]

/-- C2: when the mapping and the index have the same number of rows and
every mapped article carries a text (the shape `build_index.py`
writes), `search` succeeds; it returns `min(k, n)` hits where `n` is
the index size (in particular exactly `n` hits whenever `k` exceeds
`n`), the ranks are exactly `1..len` in order with no gaps, and the
scores are non-increasing across ranks. -/
theorem search_claims (enc : List Char → List ℚ) (s : RegulatorSearcher)
    (text : List Char) (k : Nat)
    (hlen : s.mapping.length = s.index.length)
    (htext : ∀ a ∈ s.mapping, a.text ≠ none) :
    ∃ hits, search enc s text k = some hits ∧
      hits.length = min k s.index.length ∧
      (s.index.length < k → hits.length = s.index.length) ∧
      (∀ i, i < hits.length → ∃ h2, hits[i]? = some h2 ∧ h2.rank = i + 1) ∧
      List.Chain' (fun a b : Hit => b.score ≤ a.score) hits := by
  obtain ⟨hs, hhs, hlen2, hranks, hscores⟩ := hitsLoop_spec s.mapping htext
    (indexSearch s.index (enc text) k) 1
    (fun p hp => by rw [hlen]; exact indexSearch_idx_lt _ _ _ p hp)
  refine ⟨hs, hhs, ?_, ?_, ?_, ?_⟩
  · rw [hlen2, indexSearch_length]
  · intro hk
    rw [hlen2, indexSearch_length]
    omega
  · intro i hi
    obtain ⟨h2, hh2, hr2⟩ := hranks i hi
    exact ⟨h2, hh2, by omega⟩
  · have hp := indexSearch_sorted s.index (enc text) k
    have hchain : List.Chain' (fun a b : ℚ × Nat => b.1 ≤ a.1)
        (indexSearch s.index (enc text) k) := by
      refine (List.Pairwise.chain' hp).imp ?_
      intro a b hab
      rcases hab with hab | ⟨hab, _⟩
      · exact le_of_lt hab
      · exact le_of_eq hab.symm
    have h1 : List.Chain' (fun x y : ℚ => y ≤ x) (hs.map (fun h2 => h2.score)) := by
      rw [hscores, List.chain'_map]
      exact hchain
    rw [List.chain'_map] at h1
    exact h1

def c2art1 : Article :=
  { article_id := some "a1", title := some "T1", text := some "body one",
    domain := some (some "aml_kyc"), confidence := none }

def c2art2 : Article :=
  { article_id := some "a2", title := none, text := some "body two",
    domain := none, confidence := some 3 }

def c2searcher : RegulatorSearcher :=
  { ns := "qcb".data, mapping := [c2art1, c2art2], index := [[], []], model := 0,
    regulator_ns := none }

theorem search_claims_witness :
    (c2searcher.mapping.length = c2searcher.index.length ∧
      ∀ a ∈ c2searcher.mapping, a.text ≠ none) ∧
    ∃ hits, search (fun _ => []) c2searcher ("query".data) 5 = some hits ∧
      hits.length = min 5 c2searcher.index.length ∧
      (c2searcher.index.length < 5 → hits.length = c2searcher.index.length) ∧
      (∀ i, i < hits.length → ∃ h2, hits[i]? = some h2 ∧ h2.rank = i + 1) ∧
      List.Chain' (fun a b : Hit => b.score ≤ a.score) hits :=
  ⟨⟨by decide, by decide⟩,
   search_claims (fun _ => []) c2searcher ("query".data) 5 (by decide) (by decide)⟩

/-! ## C4: namespace switching in the inference pipeline -/

/-- The external stores read by `RegulatorSearcher.__init__`.  Modelled
from the spec: `indices/<ns>/mapping.json` and
`indices/<ns>/articles.index` are per-namespace files on disk,
abstracted as functions of the namespace. -/
structure Env where
  mappingOf : List Char → List Article
  indexOf : List Char → List (List ℚ)

/-- `RegulatorSearcher.__init__(ns)` with an explicit load counter `c`:
every construction loads a fresh `SentenceTransformer`, so the new
searcher's `model` token is the current counter value and the counter
advances.  The `regulator_ns` attribute is never assigned here. -/
def RegulatorSearcher.init (env : Env) (c : Nat) (ns : List Char) :
    RegulatorSearcher × Nat :=
  ({ ns := ns, mapping := env.mappingOf ns, index := env.indexOf ns, model := c,
     regulator_ns := none }, c + 1)

/-- State of `InferencePipeline` (src/models/inference/predict.py):
identity tokens for the two loaded classifiers (tokenizer and model
each) and the searcher. -/
structure InferencePipeline where
  dt_tok : Nat
  dt_mdl : Nat
  risk_tok : Nat
  risk_mdl : Nat
  searcher : RegulatorSearcher

/-- `InferencePipeline.__init__(regulator_ns)`: loads the two
classifiers and then the searcher. -/
def InferencePipeline.init (env : Env) (c : Nat) (ns : List Char) :
    InferencePipeline × Nat :=
  let s := RegulatorSearcher.init env (c + 4) ns
  ({ dt_tok := c, dt_mdl := c + 1, risk_tok := c + 2, risk_mdl := c + 3,
     searcher := s.1 }, s.2)

/-- Embedding of `InferencePipeline.set_regulator`
(src/models/inference/predict.py lines 53-58).  Reading
`self.searcher.regulator_ns` raises `AttributeError` when the attribute
was never assigned (`none` result); otherwise, on a differing
namespace, a whole new `RegulatorSearcher` is constructed (loading a
fresh embedding model) and its `regulator_ns` attribute is then
assigned. -/
def set_regulator (env : Env) (c : Nat) (p : InferencePipeline) (r : List Char) :
    Option (InferencePipeline × Nat) :=
  match p.searcher.regulator_ns with
  | none => none
  | some cur =>
      if cur ≠ r then
        let sc := RegulatorSearcher.init env c r
        some ({ p with searcher := { sc.1 with regulator_ns := some r } }, sc.2)
      else some (p, c)

/-- Formalisation of the C4 sentence: on any freshly initialised
pipeline, switching the namespace succeeds, swaps index, mapping and
namespace identifier, and keeps the very same embedding model object
(equal identity token). -/
def SwitchPreservesModel : Prop :=
  ∀ (env : Env) (c : Nat) (ns r : List Char),
    ∃ q cc, set_regulator env (InferencePipeline.init env c ns).2
        (InferencePipeline.init env c ns).1 r = some (q, cc) ∧
      q.searcher.model = (InferencePipeline.init env c ns).1.searcher.model ∧
      q.searcher.ns = r ∧ q.searcher.mapping = env.mappingOf r ∧
      q.searcher.index = env.indexOf r

/-- C4 counterexample: the claim fails already at the first step: on a
pipeline built by `__init__`, `set_regulator` always raises
`AttributeError`, because `RegulatorSearcher.__init__` sets `self.ns`
but never `self.regulator_ns`, which `set_regulator` reads. -/
theorem c4_counterexample : ¬ SwitchPreservesModel := by
  intro h
  obtain ⟨q, cc, hq, _⟩ := h { mappingOf := fun _ => [], indexOf := fun _ => [] } 0
    ("qcb".data) ("adgm".data)
  exact Option.noConfusion hq

/-- C4 amended: (1) on any pipeline built by `__init__` the switch
fails with `AttributeError`.  (2) On a pipeline whose searcher has the
`regulator_ns` attribute set to a namespace different from the target,
the switch succeeds and swaps the namespace identifier, the mapping and
the index, and it does not touch the four classifier objects; but it
rebuilds the searcher, so the embedding model is re-loaded: the new
`model` token is the fresh counter value, distinct from every
previously allocated token.  (3) Switching to the namespace already
recorded in `regulator_ns` is a no-op. -/
theorem c4_amended (env : Env) (c c2 : Nat) (ns r cur : List Char)
    (p : InferencePipeline) :
    (set_regulator env c2 (InferencePipeline.init env c ns).1 r = none) ∧
    (p.searcher.regulator_ns = some cur → cur ≠ r →
      ∃ q cc, set_regulator env c2 p r = some (q, cc) ∧
        q.searcher.ns = r ∧
        q.searcher.mapping = env.mappingOf r ∧
        q.searcher.index = env.indexOf r ∧
        q.searcher.regulator_ns = some r ∧
        q.searcher.model = c2 ∧
        (p.searcher.model < c2 → q.searcher.model ≠ p.searcher.model) ∧
        q.dt_tok = p.dt_tok ∧ q.dt_mdl = p.dt_mdl ∧
        q.risk_tok = p.risk_tok ∧ q.risk_mdl = p.risk_mdl) ∧
    (p.searcher.regulator_ns = some r →
      set_regulator env c2 p r = some (p, c2)) := by
  refine ⟨rfl, ?_, ?_⟩
  · intro h1 h2
    unfold set_regulator
    rw [h1]
    dsimp only
    rw [if_pos h2]
    refine ⟨_, _, rfl, rfl, rfl, rfl, rfl, rfl, ?_, rfl, rfl, rfl, rfl⟩
    intro hlt
    show c2 ≠ p.searcher.model
    omega
  · intro h1
    unfold set_regulator
    rw [h1]
    dsimp only
    rw [if_neg (fun hne => hne rfl)]

def c4env : Env := { mappingOf := fun _ => [], indexOf := fun _ => [] }

def c4p : InferencePipeline :=
  { dt_tok := 0, dt_mdl := 1, risk_tok := 2, risk_mdl := 3,
    searcher := { ns := "qcb".data, mapping := [], index := [], model := 5,
                  regulator_ns := some ("qcb".data) } }

theorem c4_amended_witness :
    (set_regulator c4env 9 (InferencePipeline.init c4env 0 ("qcb".data)).1
        ("adgm".data) = none) ∧
    (∃ q cc, set_regulator c4env 9 c4p ("adgm".data) = some (q, cc) ∧
      q.searcher.ns = "adgm".data ∧
      q.searcher.mapping = c4env.mappingOf ("adgm".data) ∧
      q.searcher.index = c4env.indexOf ("adgm".data) ∧
      q.searcher.regulator_ns = some ("adgm".data) ∧
      q.searcher.model = 9 ∧
      (c4p.searcher.model < 9 → q.searcher.model ≠ c4p.searcher.model) ∧
      q.dt_tok = c4p.dt_tok ∧ q.dt_mdl = c4p.dt_mdl ∧
      q.risk_tok = c4p.risk_tok ∧ q.risk_mdl = c4p.risk_mdl) ∧
    (set_regulator c4env 9 c4p ("qcb".data) = some (c4p, 9)) :=
  ⟨(c4_amended c4env 0 9 ("qcb".data) ("adgm".data) ("qcb".data) c4p).1,
   (c4_amended c4env 0 9 ("qcb".data) ("adgm".data) ("qcb".data) c4p).2.1 rfl
     (by decide),
   (c4_amended c4env 0 9 ("qcb".data) ("qcb".data) ("qcb".data) c4p).2.2 rfl⟩

end AIX
